import Mathlib

/-!
Verification of the max-flow engine in task_1.py (Edmonds–Karp over
string-keyed dictionaries) against its natural-language specification.

Python dictionaries are modelled as association lists with insertion-order
semantics: updating an existing key rewrites its value in place, inserting a
fresh key appends it at the end, and lookup returns the first (unique) match.
Python integers are modelled as Lean Int; code that can raise a runtime
KeyError is modelled in the Except monad, and unbounded while-loops get an
explicit fuel argument whose sufficiency is proved.
-/

set_option autoImplicit false

namespace Task1

/-- A Python dict with string keys, as an insertion-ordered association list. -/
abbrev SDict (α : Type) := List (String × α)

variable {α : Type}

/-- Lookup: first entry with the given key (`d[k]` / `d.get(k)`). -/
def dfind? : SDict α → String → Option α
  | [], _ => none
  | (k, v) :: rest, key => if k = key then some v else dfind? rest key

/-- Lookup with default (`d.get(k, dflt)`). -/
def dget (d : SDict α) (key : String) (dflt : α) : α := (dfind? d key).getD dflt

/-- The keys, in insertion order (`list(d.keys())`). -/
def dkeys (d : SDict α) : List String := d.map (·.1)

/-- `d[k] = v`: update in place if the key exists, else append at the end. -/
def dset : SDict α → String → α → SDict α
  | [], key, v => [(key, v)]
  | (k, w) :: rest, key, v =>
    if k = key then (k, v) :: rest else (k, w) :: dset rest key v

/-- `d.setdefault(k, v)`: insert only if the key is absent. -/
def dsetd : SDict α → String → α → SDict α
  | [], key, v => [(key, v)]
  | (k, w) :: rest, key, v =>
    if k = key then (k, w) :: rest else (k, w) :: dsetd rest key v

@[simp] theorem dfind?_nil (key : String) : dfind? ([] : SDict α) key = none := rfl

theorem dfind?_cons (k : String) (v : α) (rest : SDict α) (key : String) :
    dfind? ((k, v) :: rest) key = if k = key then some v else dfind? rest key := rfl

@[simp] theorem dkeys_nil : dkeys ([] : SDict α) = [] := rfl

@[simp] theorem dkeys_cons (k : String) (v : α) (rest : SDict α) :
    dkeys ((k, v) :: rest) = k :: dkeys rest := rfl

theorem dfind?_isSome_iff_mem (d : SDict α) (key : String) :
    (dfind? d key).isSome ↔ key ∈ dkeys d := by
  induction d with
  | nil => simp
  | cons p rest ih =>
    obtain ⟨k, v⟩ := p
    by_cases h : k = key
    · simp [dfind?, h]
    · simp only [dfind?, if_neg h, dkeys_cons, List.mem_cons, ih]
      exact ⟨Or.inr, fun h' => h'.resolve_left fun he => h he.symm⟩

theorem dfind?_eq_none_of_not_mem {d : SDict α} {key : String}
    (h : key ∉ dkeys d) : dfind? d key = none := by
  cases hf : dfind? d key with
  | none => rfl
  | some v =>
    exact absurd ((dfind?_isSome_iff_mem d key).1 (by simp [hf])) h

theorem mem_dkeys_of_dfind? {d : SDict α} {key : String} {v : α}
    (h : dfind? d key = some v) : key ∈ dkeys d :=
  (dfind?_isSome_iff_mem d key).1 (by simp [h])

theorem dfind?_isSome_of_mem {d : SDict α} {key : String}
    (h : key ∈ dkeys d) : ∃ v, dfind? d key = some v := by
  have := (dfind?_isSome_iff_mem d key).2 h
  cases hf : dfind? d key with
  | none => rw [hf] at this; simp at this
  | some v => exact ⟨v, rfl⟩

@[simp] theorem dkeys_dset (d : SDict α) (key : String) (v : α) :
    dkeys (dset d key v) = if key ∈ dkeys d then dkeys d else dkeys d ++ [key] := by
  induction d with
  | nil => simp [dset]
  | cons p rest ih =>
    obtain ⟨k, w⟩ := p
    by_cases h : k = key
    · simp [dset, h]
    · simp only [dset, if_neg h, dkeys_cons, ih]
      by_cases hm : key ∈ dkeys rest
      · rw [if_pos hm, if_pos (List.mem_cons_of_mem k hm)]
      · rw [if_neg hm, if_neg (by
          simp only [List.mem_cons]
          rintro (he | hmm)
          · exact h he.symm
          · exact hm hmm)]
        simp

theorem dfind?_dset_self (d : SDict α) (key : String) (v : α) :
    dfind? (dset d key v) key = some v := by
  induction d with
  | nil => simp [dset, dfind?]
  | cons p rest ih =>
    obtain ⟨k, w⟩ := p
    by_cases h : k = key <;> simp [dset, h, dfind?, ih]

theorem dfind?_dset_ne (d : SDict α) (key key' : String) (v : α) (h : key ≠ key') :
    dfind? (dset d key v) key' = dfind? d key' := by
  induction d with
  | nil => simp [dset, dfind?, h]
  | cons p rest ih =>
    obtain ⟨k, w⟩ := p
    by_cases hk : k = key
    · subst hk; simp [dset, dfind?, h, ih]
    · simp only [dset, if_neg hk, dfind?]
      by_cases hk' : k = key' <;> simp [hk', ih]

theorem dfind?_dsetd (d : SDict α) (key key' : String) (v : α) :
    dfind? (dsetd d key v) key' =
      if key ∈ dkeys d then dfind? d key'
      else if key = key' then some v else dfind? d key' := by
  induction d with
  | nil => simp [dsetd, dfind?]
  | cons p rest ih =>
    obtain ⟨k, w⟩ := p
    by_cases hk : k = key
    · subst hk
      rw [if_pos (by simp), show dsetd ((k, w) :: rest) k v = (k, w) :: rest by
        simp [dsetd]]
    · have hmem : (key ∈ dkeys ((k, w) :: rest)) ↔ key ∈ dkeys rest := by
        rw [dkeys_cons, List.mem_cons]
        exact ⟨fun h => h.resolve_left fun he => hk he.symm, Or.inr⟩
      simp only [dsetd, if_neg hk]
      by_cases hm : key ∈ dkeys rest
      · rw [if_pos (hmem.2 hm), dfind?_cons, dfind?_cons, ih, if_pos hm]
      · rw [if_neg (fun h => hm (hmem.1 h)), dfind?_cons, dfind?_cons, ih, if_neg hm]
        by_cases hv : key = key'
        · subst hv
          rw [if_pos rfl, if_pos rfl, if_neg hk]
        · rw [if_neg hv, if_neg hv]

@[simp] theorem dkeys_dsetd (d : SDict α) (key : String) (v : α) :
    dkeys (dsetd d key v) = if key ∈ dkeys d then dkeys d else dkeys d ++ [key] := by
  induction d with
  | nil => simp [dsetd]
  | cons p rest ih =>
    obtain ⟨k, w⟩ := p
    by_cases h : k = key
    · simp [dsetd, h]
    · simp only [dsetd, if_neg h, dkeys_cons, ih]
      by_cases hm : key ∈ dkeys rest
      · rw [if_pos hm, if_pos (List.mem_cons_of_mem k hm)]
      · rw [if_neg hm, if_neg (by
          simp only [List.mem_cons]
          rintro (he | hmm)
          · exact h he.symm
          · exact hm hmm)]
        simp

theorem dkeys_nodup_dset {d : SDict α} (key : String) (v : α)
    (h : (dkeys d).Nodup) : (dkeys (dset d key v)).Nodup := by
  rw [dkeys_dset]
  by_cases hm : key ∈ dkeys d
  · simpa [hm] using h
  · simp only [if_neg hm]
    simpa [List.nodup_append, hm] using h

theorem dkeys_nodup_dsetd {d : SDict α} (key : String) (v : α)
    (h : (dkeys d).Nodup) : (dkeys (dsetd d key v)).Nodup := by
  rw [dkeys_dsetd]
  by_cases hm : key ∈ dkeys d
  · simpa [hm] using h
  · simp only [if_neg hm]
    simpa [List.nodup_append, hm] using h

/-- Runtime failures of the modelled Python code: a dictionary lookup of a
missing key (Python KeyError), a negative-capacity insertion (the ValueError
raised by add_edge), or exhaustion of the explicit fuel that models an
unbounded while-loop (proved unreachable under the stated hypotheses). -/
inductive Err where
  | keyError : Err
  | fuelExhausted : Err
  | invalidCapacity : Err
  deriving DecidableEq, Repr

/-- A capacitated graph: `graph[u][v] = c` is a directed edge u→v of capacity
c, exactly as in MaxFlow.graph. -/
abbrev Graph := SDict (SDict Int)

/-- Capacity of edge u→v, 0 when the edge is absent. -/
def cap (g : Graph) (u v : String) : Int := dget (dget g u []) v 0

/-- The edge u→v is present in the graph (an inner dictionary entry exists). -/
def hasEdge (g : Graph) (u v : String) : Prop :=
  match dfind? g u with
  | none => False
  | some d => v ∈ dkeys d

instance (g : Graph) (u v : String) : Decidable (hasEdge g u v) := by
  unfold hasEdge
  cases dfind? g u with
  | none => exact isFalse (fun h => h)
  | some d => exact List.instDecidableMemOfLawfulBEq v (dkeys d)

/-- Some edge joins u and v, in either direction. -/
def adj (g : Graph) (u v : String) : Prop := hasEdge g u v ∨ hasEdge g v u

/--
MaxFlow.add_edge: raises on negative capacity, otherwise accumulates the
capacity onto the existing edge (`graph[u][v] = graph[u].get(v, 0) + c`) and
ensures `v` has a (possibly empty) outgoing-edge entry
(`graph.setdefault(v, graph.get(v, {}))`).  The defaultdict access `graph[u]`
creates an empty entry for `u` when absent.  The node set `self.nodes` is not
modelled separately: under the well-formedness invariant it always equals the
set of outer keys of the graph dictionary.
-/
def addEdge (g : Graph) (u v : String) (c : Int) : Except Err Graph :=
  if c < 0 then .error .invalidCapacity
  else
    let gu := dget g u []                     -- defaultdict access graph[u]
    let g1 := dset g u (dset gu v (dget gu v 0 + c))
    .ok (dsetd g1 v (dget g1 v []))

/-- Well-formed graph state, as maintained by add_edge: outer keys are
unique, inner keys are unique, every edge target is itself an outer key
(add_edge's setdefault guarantees this), and capacities are non-negative. -/
def WFGraph (g : Graph) : Prop :=
  (dkeys g).Nodup ∧
  (∀ p ∈ g, (dkeys p.2).Nodup) ∧
  (∀ p ∈ g, ∀ q ∈ p.2, q.1 ∈ dkeys g ∧ 0 ≤ q.2)

/-- One step of the reverse-edge fill-in inside _build_residual:
`res.setdefault(v, {}).setdefault(u, 0)`. -/
def resSetd (res : Graph) (v u : String) : Graph :=
  dset res v (dsetd (dget res v []) u 0)

/--
MaxFlow._build_residual: start from a copy of the graph, then for every
key u of the snapshot and every key v of res[u] at the time u is processed,
install a zero-capacity reverse entry res[v][u] unless one exists.
-/
def buildResidual (g : Graph) : Graph :=
  (dkeys g).foldl (fun res u =>
    (dkeys (dget res u [])).foldl (fun r v => resSetd r v u) res) g

/-- Residual lookup `res[u][v]` as Python performs it (KeyError if absent). -/
def rlookE (res : Graph) (u v : String) : Except Err Int :=
  match dfind? res u with
  | none => .error .keyError
  | some d =>
    match dfind? d v with
    | none => .error .keyError
    | some c => .ok c

/-- Result of a successful augmenting-path search (_PathResult). -/
structure PathResult where
  bottleneck : Int
  parent : SDict (Option String)

/-- The walk `while parent[x] is not None: x = parent[x]` collecting the
visited nodes, sink first; the node whose parent is None (the BFS root)
closes the list.  Fuel is the size of the parent map, proved sufficient. -/
def walkPath (parent : SDict (Option String)) : Nat → String → Except Err (List String)
  | 0, _ => .error .fuelExhausted
  | fuel+1, x =>
    match dfind? parent x with
    | none => .error .keyError
    | some none => .ok [x]
    | some (some p) =>
      match walkPath parent fuel p with
      | .error e => .error e
      | .ok l => .ok (x :: l)

/-- The residual capacities `res[parent[x]][x]` read along the walk: the
list element pair (x, u) of a sink-first path contributes res[u][x]. -/
def pathCaps (res : Graph) : List String → Except Err (List Int)
  | x :: u :: rest =>
    match rlookE res u x with
    | .error e => .error e
    | .ok c =>
      match pathCaps res (u :: rest) with
      | .error e => .error e
      | .ok cs => .ok (c :: cs)
  | _ => .ok []

/-- `min` of the capacities along the path, seeded by float("inf"): on an
empty path the Python code would turn the infinity into an int and fail,
which is modelled as an error (it is proved unreachable). -/
def minCaps : List Int → Except Err Int
  | [] => .error .keyError
  | c :: cs => .ok (cs.foldl min c)

/-- Bottleneck reconstruction performed inside _bfs_augment as soon as the
sink is discovered. -/
def mkPathResult (res : Graph) (parent : SDict (Option String)) (t : String) :
    Except Err PathResult :=
  match walkPath parent parent.length t with
  | .error e => .error e
  | .ok p =>
    match pathCaps res p with
    | .error e => .error e
    | .ok cs =>
      match minCaps cs with
      | .error e => .error e
      | .ok b => .ok ⟨b, parent⟩

/-- The `for v, cap in res[u].items()` loop body of _bfs_augment: visit each
neighbour with positive residual capacity that has no parent yet, returning
early with a PathResult as soon as the sink is reached. -/
def scanNbrs (res : Graph) (t u : String) :
    List (String × Int) → SDict (Option String) → List String →
    Except Err ((SDict (Option String) × List String) ⊕ PathResult)
  | [], parent, q => .ok (.inl (parent, q))
  | (v, c) :: rest, parent, q =>
    if v ∉ dkeys parent ∧ 0 < c then
      let parent' := dset parent v (some u)
      if v = t then
        match mkPathResult res parent' t with
        | .error e => .error e
        | .ok pr => .ok (.inr pr)
      else scanNbrs res t u rest parent' (q ++ [v])
    else scanNbrs res t u rest parent q

/-- The `while q` loop of _bfs_augment; the queue pops at the front and
appends at the back. -/
def bfsLoop (res : Graph) (t : String) :
    Nat → List String → SDict (Option String) → Except Err (Option PathResult)
  | 0, _, _ => .error .fuelExhausted
  | _+1, [], _ => .ok none
  | fuel+1, u :: q, parent =>
    match dfind? res u with
    | none => .error .keyError
    | some nbrs =>
      match scanNbrs res t u nbrs parent q with
      | .error e => .error e
      | .ok (.inr pr) => .ok (some pr)
      | .ok (.inl (parent', q')) => bfsLoop res t fuel q' parent'

/-- Fuel that always suffices for one BFS: every queue insertion creates a
fresh parent entry, and parent keys are drawn from the root plus the inner
keys of the residual dictionary. -/
def bfsFuel (res : Graph) : Nat := 1 + (res.map (fun p => p.2.length)).sum + res.length

/-- MaxFlow._bfs_augment: BFS from s over positive residual capacities;
`some` with path data when t is reached, `none` when the queue empties. -/
def bfsAugment (res : Graph) (s t : String) : Except Err (Option PathResult) :=
  bfsLoop res t (bfsFuel res) [s] [(s, none)]

/-- `res[u][v] += delta` (KeyError when the entry is absent). -/
def updEdge (res : Graph) (u v : String) (delta : Int) : Except Err Graph :=
  match dfind? res u with
  | none => .error .keyError
  | some d =>
    match dfind? d v with
    | none => .error .keyError
    | some c => .ok (dset res u (dset d v (c + delta)))

/-- The augmentation walk of edmonds_karp: starting from the sink, follow
the parent chain; for each edge u→v on the path subtract the bottleneck
from res[u][v] and add it to res[v][u]. -/
def augmentAlong (parent : SDict (Option String)) (aug : Int) :
    Nat → Graph → String → Except Err Graph
  | 0, _, _ => .error .fuelExhausted
  | fuel+1, res, v =>
    match dfind? parent v with
    | none => .error .keyError
    | some none => .ok res
    | some (some u) =>
      match updEdge res u v (-aug) with
      | .error e => .error e
      | .ok r1 =>
        match updEdge r1 v u aug with
        | .error e => .error e
        | .ok r2 => augmentAlong parent aug fuel r2 u

/-- The `while True` loop of edmonds_karp: search for an augmenting path,
stop on None, otherwise add the bottleneck to the total and update the
residual along the path. -/
def ekLoop (s t : String) : Nat → Graph → Int → Except Err (Int × Graph)
  | 0, _, _ => .error .fuelExhausted
  | fuel+1, res, total =>
    match bfsAugment res s t with
    | .error e => .error e
    | .ok none => .ok (total, res)
    | .ok (some pr) =>
      match augmentAlong pr.parent pr.bottleneck pr.parent.length res t with
      | .error e => .error e
      | .ok res' => ekLoop s t fuel res' (total + pr.bottleneck)

/-- One row of the final flow matrix: for each original edge u→v of
capacity c, realized flow is c − residual[u][v], clamped below at 0. -/
def fmRow (res : Graph) (u : String) : SDict Int → Except Err (SDict Int)
  | [] => .ok []
  | (v, c) :: rest =>
    match rlookE res u v with
    | .error e => .error e
    | .ok r =>
      match fmRow res u rest with
      | .error e => .error e
      | .ok row => .ok ((v, if 0 < c - r then c - r else 0) :: row)

/-- The flow-matrix derivation loop of edmonds_karp.  The outer defaultdict
only materialises a key u once the inner loop assigns to it, so nodes with
no outgoing edges get no row. -/
def flowMatrix (res : Graph) : Graph → Except Err Graph
  | [] => .ok []
  | (u, inner) :: rest =>
    if inner.isEmpty then flowMatrix res rest
    else
      match fmRow res u inner with
      | .error e => .error e
      | .ok row =>
        match flowMatrix res rest with
        | .error e => .error e
        | .ok fm => .ok ((u, row) :: fm)

/-- Sum of the capacities leaving s, the bound the spec places on the number
of augmenting iterations. -/
def sumOutCaps (g : Graph) (s : String) : Int := ((dget g s []).map (·.2)).sum

/-- Fuel for the augmenting loop: one more than the source's outgoing
capacity, proved sufficient because every augmentation adds at least 1 to
the total flow and the total never exceeds that capacity. -/
def ekFuel (g : Graph) (s : String) : Nat := 1 + (sumOutCaps g s).toNat

/-- MaxFlow.edmonds_karp: build the residual graph, run the augmenting
loop, then derive the flow matrix. -/
def edmondsKarp (g : Graph) (s t : String) : Except Err (Int × Graph × Graph) :=
  let residual := buildResidual g
  match ekLoop s t (ekFuel g s) residual 0 with
  | .error e => .error e
  | .ok (total, resF) =>
    match flowMatrix resF g with
    | .error e => .error e
    | .ok fm => .ok (total, fm, resF)

/-! ### Semantics of add_edge -/

/-- Number of entries of a dictionary carrying a given key. -/
def countKey (d : SDict α) (k : String) : Nat :=
  (d.filter (fun p => p.1 == k)).length

theorem countKey_dset_of_nodup {d : SDict α} (hk : (dkeys d).Nodup)
    (k : String) (v : α) : countKey (dset d k v) k = 1 := by
  induction d with
  | nil => simp [dset, countKey]
  | cons p rest ih =>
    obtain ⟨k', w⟩ := p
    simp only [dkeys_cons, List.nodup_cons] at hk
    by_cases h : k' = k
    · subst h
      have : countKey rest k' = 0 := by
        unfold countKey
        rw [List.length_eq_zero, List.filter_eq_nil]
        intro p hp hne
        exact hk.1 (by
          have : p.1 = k' := by simpa using hne
          rw [← this]
          exact List.mem_map_of_mem (·.1) hp)
      simp [dset, countKey, List.filter] at this ⊢
      exact this
    · simp only [dset, if_neg h, countKey, List.filter]
      have : (k' == k) = false := by simpa using h
      rw [this]
      exact ih hk.2

theorem countKey_eq_zero_of_not_mem {d : SDict α} {k : String}
    (h : k ∉ dkeys d) : countKey d k = 0 := by
  unfold countKey
  rw [List.length_eq_zero, List.filter_eq_nil]
  intro p hp hne
  exact h (by
    have : p.1 = k := by simpa using hne
    rw [← this]
    exact List.mem_map_of_mem (·.1) hp)

theorem dget_dset_self (d : SDict α) (k : String) (v : α) (dflt : α) :
    dget (dset d k v) k dflt = v := by
  simp [dget, dfind?_dset_self]

theorem dget_dset_ne (d : SDict α) (k k' : String) (v : α) (dflt : α) (h : k ≠ k') :
    dget (dset d k v) k' dflt = dget d k' dflt := by
  simp [dget, dfind?_dset_ne _ _ _ _ h]

/-- `d.setdefault(k, d.get(k, []))` changes no default-[] lookup. -/
theorem dget_dsetd_self_default (d : SDict (SDict Int)) (k a : String) :
    dget (dsetd d k (dget d k [])) a [] = dget d a [] := by
  unfold dget
  rw [dfind?_dsetd]
  by_cases hm : k ∈ dkeys d
  · simp [hm]
  · simp only [if_neg hm]
    by_cases hak : k = a
    · subst hak
      rw [if_pos rfl, dfind?_eq_none_of_not_mem hm]
      simp [dget]
    · rw [if_neg hak]

/-- Membership after dset: every entry is the new pair or an old entry. -/
theorem mem_dset {d : SDict α} {k : String} {v : α} {p : String × α}
    (h : p ∈ dset d k v) : p = (k, v) ∨ p ∈ d := by
  induction d with
  | nil => simpa [dset] using h
  | cons q rest ih =>
    obtain ⟨k', w⟩ := q
    by_cases hk : k' = k
    · rw [show dset ((k', w) :: rest) k v = (k, v) :: rest from by
        simp [dset, hk]] at h
      rcases List.mem_cons.1 h with h1 | h2
      · exact .inl h1
      · exact .inr (List.mem_cons_of_mem _ h2)
    · simp only [dset, if_neg hk, List.mem_cons] at h
      rcases h with h | h
      · exact .inr (by simp [h])
      · rcases ih h with h' | h'
        · exact .inl h'
        · exact .inr (List.mem_cons_of_mem _ h')

theorem mem_dsetd {d : SDict α} {k : String} {v : α} {p : String × α}
    (h : p ∈ dsetd d k v) : p = (k, v) ∨ p ∈ d := by
  induction d with
  | nil => simpa [dsetd] using h
  | cons q rest ih =>
    obtain ⟨k', w⟩ := q
    by_cases hk : k' = k
    · rw [show dsetd ((k', w) :: rest) k v = (k', w) :: rest from by
        simp [dsetd, hk]] at h
      exact .inr h
    · simp only [dsetd, if_neg hk, List.mem_cons] at h
      rcases h with h | h
      · exact .inr (by simp [h])
      · rcases ih h with h' | h'
        · exact .inl h'
        · exact .inr (List.mem_cons_of_mem _ h')

/-- add_edge with non-negative capacity succeeds, and its whole semantic
effect on capacities is to add c at the single entry (u,v). -/
theorem addEdge_ok (g : Graph) (u v : String) (c : Int) (hc : 0 ≤ c) :
    ∃ g', addEdge g u v c = .ok g' ∧
      (∀ a b, cap g' a b = cap g a b + if a = u ∧ b = v then c else 0) ∧
      dget g' u [] = dset (dget g u []) v (dget (dget g u []) v 0 + c) ∧
      (∀ a, a ≠ u → dget g' a [] = dget g a []) ∧
      u ∈ dkeys g' ∧ v ∈ dkeys g' := by
  refine ⟨_, by rw [addEdge, if_neg (not_lt.2 hc)], ?_, ?_, ?_, ?_, ?_⟩
  · intro a b
    rw [show cap _ a b = dget (dget (dsetd _ v _) a []) b 0 from rfl,
      dget_dsetd_self_default]
    by_cases ha : a = u
    · subst ha
      rw [cap, dget_dset_self]
      by_cases hb : b = v
      · subst hb
        rw [dget_dset_self]
        simp [cap, dget]
      · rw [dget_dset_ne _ _ _ _ _ (fun h => hb h.symm)]
        simp [cap, hb]
    · rw [cap, dget_dset_ne _ _ _ _ _ (fun h => ha h.symm)]
      simp [ha]
  · rw [dget_dsetd_self_default, dget_dset_self]
  · intro a ha
    rw [dget_dsetd_self_default, dget_dset_ne _ _ _ _ _ (fun h => ha h.symm)]
  · have h1 : u ∈ dkeys (dset g u (dset (dget g u []) v (dget (dget g u []) v 0 + c))) := by
      rw [dkeys_dset]
      by_cases hm : u ∈ dkeys g <;> simp [hm]
    rw [dkeys_dsetd]
    split
    · exact h1
    · exact List.mem_append_left _ h1
  · rw [dkeys_dsetd]
    split
    · assumption
    · exact List.mem_append_right _ (by simp)


theorem dget_eq (d : SDict α) (k : String) (dflt : α) :
    dget d k dflt = (dfind? d k).getD dflt := rfl

theorem cap_eq (g : Graph) (u v : String) :
    cap g u v = (dfind? (dget g u []) v).getD 0 := rfl

theorem mem_of_dfind? {d : SDict α} {k : String} {v : α}
    (h : dfind? d k = some v) : (k, v) ∈ d := by
  induction d with
  | nil => simp at h
  | cons p rest ih =>
    obtain ⟨k', w⟩ := p
    by_cases hk : k' = k
    · subst hk
      rw [dfind?_cons, if_pos rfl] at h
      have hwv := Option.some.inj h
      subst hwv
      exact List.mem_cons_self _ _
    · rw [dfind?_cons, if_neg hk] at h
      exact List.mem_cons_of_mem _ (ih h)

/-- The default-[] row of a well-formed graph has unique keys and entries
satisfying the well-formedness conditions. -/
theorem row_nodup {g : Graph} (hwf : WFGraph g) (u : String) :
    (dkeys (dget g u [])).Nodup := by
  rw [dget_eq]
  cases hf : dfind? g u with
  | none => simp
  | some d => exact hwf.2.1 (u, d) (mem_of_dfind? hf)

theorem row_entries {g : Graph} (hwf : WFGraph g) (u : String) :
    ∀ q ∈ dget g u [], q.1 ∈ dkeys g ∧ 0 ≤ q.2 := by
  rw [dget_eq]
  cases hf : dfind? g u with
  | none => simp
  | some d => exact fun q hq => hwf.2.2 (u, d) (mem_of_dfind? hf) q hq

theorem cap_nonneg {g : Graph} (hwf : WFGraph g) (u v : String) :
    0 ≤ cap g u v := by
  rw [cap_eq]
  cases hf : dfind? (dget g u []) v with
  | none => simp
  | some x => simpa using (row_entries hwf u (v, x) (mem_of_dfind? hf)).2

theorem cap_eq_zero_of_not_hasEdge {g : Graph} {u v : String}
    (h : ¬ hasEdge g u v) : cap g u v = 0 := by
  rw [cap_eq]
  cases hg : dfind? g u with
  | none => rw [dget_eq, hg]; simp
  | some d =>
    unfold hasEdge at h
    rw [hg] at h
    rw [dget_eq, hg]
    simp only [Option.getD_some]
    rw [dfind?_eq_none_of_not_mem h]
    rfl

theorem dkeys_mono_dset {d : SDict α} (k : String) (v : α) {a : String}
    (h : a ∈ dkeys d) : a ∈ dkeys (dset d k v) := by
  rw [dkeys_dset]
  by_cases hm : k ∈ dkeys d <;> simp [hm, h]

theorem dkeys_mono_dsetd {d : SDict α} (k : String) (v : α) {a : String}
    (h : a ∈ dkeys d) : a ∈ dkeys (dsetd d k v) := by
  rw [dkeys_dsetd]
  by_cases hm : k ∈ dkeys d <;> simp [hm, h]

/-- add_edge preserves the graph well-formedness invariant. -/
theorem addEdge_wf {g : Graph} {u v : String} {c : Int} {g' : Graph}
    (hwf : WFGraph g) (h : addEdge g u v c = .ok g') : WFGraph g' := by
  have hc : 0 ≤ c := by
    by_contra hneg
    rw [addEdge, if_pos (lt_of_not_le fun hle => hneg hle)] at h
    exact Except.noConfusion h
  have heq2 : addEdge g u v c =
      .ok (dsetd (dset g u (dset (dget g u []) v (dget (dget g u []) v 0 + c))) v
        (dget (dset g u (dset (dget g u []) v (dget (dget g u []) v 0 + c))) v [])) := by
    rw [addEdge, if_neg (not_lt.2 hc)]
  rw [heq2] at h
  have hg' := (Except.ok.inj h).symm
  obtain ⟨g2, heq, hcap, hrowu, hrowo, hu, hv⟩ := addEdge_ok g u v c hc
  rw [heq2] at heq
  have hg2 := Except.ok.inj heq
  set gu := dget g u [] with hgu
  set r := dset gu v (dget gu v 0 + c) with hr
  set g1 := dset g u r with hg1def
  rw [hg'] at *
  rw [← hg2] at hu hv
  -- rows of g1 are the new row r at u, or rows of g
  have hmemg1 : ∀ p ∈ g1, p = (u, r) ∨ p ∈ g := fun p hp => mem_dset hp
  have hrnodup : (dkeys r).Nodup := dkeys_nodup_dset _ _ (row_nodup hwf u)
  have hg1nodup : ∀ p ∈ g1, (dkeys p.2).Nodup := by
    intro p hp
    rcases hmemg1 p hp with h1 | h1
    · rw [h1]; exact hrnodup
    · exact hwf.2.1 p h1
  have hkeysg' : ∀ a, a ∈ dkeys g → a ∈ dkeys (dsetd g1 v (dget g1 v [])) := by
    intro a ha
    exact dkeys_mono_dsetd _ _ (dkeys_mono_dset _ _ ha)
  have hrent : ∀ q ∈ r, q.1 ∈ dkeys (dsetd g1 v (dget g1 v [])) ∧ 0 ≤ q.2 := by
    intro q hq
    rcases mem_dset hq with h1 | h1
    · constructor
      · rw [h1]; exact hv
      · rw [h1]
        exact add_nonneg (cap_nonneg hwf u v) hc
    · have := row_entries hwf u q h1
      exact ⟨hkeysg' _ this.1, this.2⟩
  have hg1ent : ∀ p ∈ g1, ∀ q ∈ p.2, q.1 ∈ dkeys (dsetd g1 v (dget g1 v [])) ∧ 0 ≤ q.2 := by
    intro p hp q hq
    rcases hmemg1 p hp with h1 | h1
    · exact hrent q (by rw [h1] at hq; exact hq)
    · have := hwf.2.2 p h1 q hq
      exact ⟨hkeysg' _ this.1, this.2⟩
  have hvrow : ∀ q ∈ dget g1 v [], q.1 ∈ dkeys (dsetd g1 v (dget g1 v [])) ∧ 0 ≤ q.2 := by
    intro q hq
    rw [dget_eq] at hq
    cases hf : dfind? g1 v with
    | none => rw [hf] at hq; simp at hq
    | some d =>
      rw [hf] at hq
      exact hg1ent (v, d) (mem_of_dfind? hf) q (by simpa using hq)
  have hvnodup : (dkeys (dget g1 v [])).Nodup := by
    rw [dget_eq]
    cases hf : dfind? g1 v with
    | none => simp
    | some d => exact hg1nodup (v, d) (mem_of_dfind? hf)
  refine ⟨?_, ?_, ?_⟩
  · exact dkeys_nodup_dsetd _ _ (dkeys_nodup_dset _ _ hwf.1)
  · intro p hp
    rcases mem_dsetd hp with h1 | h1
    · rw [h1]; exact hvnodup
    · exact hg1nodup p h1
  · intro p hp q hq
    rcases mem_dsetd hp with h1 | h1
    · exact hvrow q (by rw [h1] at hq; exact hq)
    · exact hg1ent p h1 q hq

/-! ### Characterisation of _build_residual -/

/-- Two-level lookup res[a][b] as an Option. -/
def dfind2 (res : Graph) (a b : String) : Option Int :=
  match dfind? res a with
  | none => none
  | some d => dfind? d b

theorem hasEdge_iff_dfind2 (res : Graph) (a b : String) :
    hasEdge res a b ↔ ∃ x, dfind2 res a b = some x := by
  unfold hasEdge dfind2
  cases dfind? res a with
  | none => simp
  | some d =>
    constructor
    · intro h
      obtain ⟨x, hx⟩ := dfind?_isSome_of_mem h
      exact ⟨x, hx⟩
    · rintro ⟨x, hx⟩
      exact mem_dkeys_of_dfind? hx

theorem cap_of_dfind2 {res : Graph} {a b : String} {x : Int}
    (h : dfind2 res a b = some x) : cap res a b = x := by
  unfold dfind2 at h
  rw [cap_eq, dget_eq]
  revert h
  cases dfind? res a with
  | none => intro h; exact Option.noConfusion h
  | some d =>
    intro h
    change dfind? d b = some x at h
    simp only [Option.getD_some]
    rw [h]
    rfl

theorem cap_of_dfind2_none {res : Graph} {a b : String}
    (h : dfind2 res a b = none) : cap res a b = 0 := by
  unfold dfind2 at h
  rw [cap_eq, dget_eq]
  revert h
  cases dfind? res a with
  | none => intro h; rfl
  | some d =>
    intro h
    change dfind? d b = none at h
    simp only [Option.getD_some]
    rw [h]
    rfl

theorem dget_row_eq_dfind2 (res : Graph) (a b : String) :
    dfind? (dget res a []) b = dfind2 res a b := by
  rw [dget_eq]
  unfold dfind2
  cases dfind? res a with
  | none => rfl
  | some d => rfl

theorem hasEdge_iff_mem_row (res : Graph) (a b : String)
    (ha : a ∈ dkeys res) : hasEdge res a b ↔ b ∈ dkeys (dget res a []) := by
  obtain ⟨d, hd⟩ := dfind?_isSome_of_mem ha
  unfold hasEdge
  rw [hd, dget_eq, hd]
  simp

/-- The single semantic effect of `res.setdefault(v, {}).setdefault(u, 0)`:
it installs (v,u) ↦ 0 when that entry is missing and changes nothing else. -/
theorem dfind2_resSetd (res : Graph) (v u : String) (a b : String) :
    dfind2 (resSetd res v u) a b =
      if a = v ∧ b = u ∧ ¬ hasEdge res v u then some 0 else dfind2 res a b := by
  unfold resSetd
  by_cases hav : a = v
  · subst hav
    have hrow : dfind? (dset res a (dsetd (dget res a []) u 0)) a =
        some (dsetd (dget res a []) u 0) := dfind?_dset_self _ _ _
    rw [show dfind2 (dset res a (dsetd (dget res a []) u 0)) a b =
        dfind? (dsetd (dget res a []) u 0) b from by
      unfold dfind2; rw [hrow]]
    rw [dfind?_dsetd]
    have hhe : hasEdge res a u ↔ u ∈ dkeys (dget res a []) := by
      unfold hasEdge
      rw [dget_eq]
      cases dfind? res a with
      | none => simp
      | some d => simp
    by_cases hm : u ∈ dkeys (dget res a [])
    · rw [if_pos hm, if_neg (by simp [hhe.2 hm]), dget_row_eq_dfind2]
    · rw [if_neg hm]
      by_cases hub : u = b
      · subst hub
        rw [if_pos rfl, if_pos ⟨rfl, rfl, fun h => hm (hhe.1 h)⟩]
      · rw [if_neg hub, if_neg (by
          rintro ⟨-, hb, -⟩
          exact hub hb.symm), dget_row_eq_dfind2]
  · rw [if_neg (by rintro ⟨h, -, -⟩; exact hav h)]
    unfold dfind2
    rw [dfind?_dset_ne _ _ _ _ (fun h => hav h.symm)]

theorem dkeys_resSetd (res : Graph) (v u : String) :
    dkeys (resSetd res v u) =
      if v ∈ dkeys res then dkeys res else dkeys res ++ [v] := by
  unfold resSetd
  exact dkeys_dset _ _ _

theorem rowNodup_of_rows {res : Graph} (h : ∀ p ∈ res, (dkeys p.2).Nodup)
    (a : String) : (dkeys (dget res a [])).Nodup := by
  rw [dget_eq]
  cases hf : dfind? res a with
  | none => simp
  | some d => exact h (a, d) (mem_of_dfind? hf)

theorem rows_nodup_resSetd {res : Graph} (v u : String)
    (h : ∀ p ∈ res, (dkeys p.2).Nodup) :
    ∀ p ∈ resSetd res v u, (dkeys p.2).Nodup := by
  intro p hp
  rcases mem_dset hp with h1 | h1
  · rw [h1]
    exact dkeys_nodup_dsetd _ _ (rowNodup_of_rows h v)
  · exact h p h1

theorem hasEdge_src_mem {g : Graph} {a b : String} (h : hasEdge g a b) :
    a ∈ dkeys g := by
  unfold hasEdge at h
  revert h
  cases hf : dfind? g a with
  | none => intro h; exact absurd h (fun hh => hh)
  | some d => intro h; exact mem_dkeys_of_dfind? hf

theorem hasEdge_tgt_mem {g : Graph} (hwf : WFGraph g) {a b : String}
    (h : hasEdge g a b) : b ∈ dkeys g := by
  unfold hasEdge at h
  revert h
  cases hf : dfind? g a with
  | none => intro h; exact absurd h (fun hh => hh)
  | some d =>
    intro h
    obtain ⟨x, hx⟩ := dfind?_isSome_of_mem h
    exact (hwf.2.2 (a, d) (mem_of_dfind? hf) (b, x) (mem_of_dfind? hx)).1

theorem mem_row_hasEdge {res : Graph} {u v : String}
    (h : v ∈ dkeys (dget res u [])) : hasEdge res u v := by
  rw [dget_eq] at h
  unfold hasEdge
  revert h
  cases dfind? res u with
  | none => intro h; simp at h
  | some d => intro h; simpa using h

theorem hasEdge_mem_row {res : Graph} {u v : String}
    (h : hasEdge res u v) : v ∈ dkeys (dget res u []) := by
  rw [dget_eq]
  unfold hasEdge at h
  revert h
  cases dfind? res u with
  | none => intro h; exact absurd h (fun hh => hh)
  | some d => intro h; simpa using h

theorem dfind2_none_of_not_hasEdge {res : Graph} {a b : String}
    (h : ¬ hasEdge res a b) : dfind2 res a b = none := by
  cases hf : dfind2 res a b with
  | none => rfl
  | some x => exact absurd ((hasEdge_iff_dfind2 res a b).2 ⟨x, hf⟩) h

theorem hasEdge_resSetd_mono {res : Graph} {a b : String} (v u : String)
    (h : hasEdge res a b) : hasEdge (resSetd res v u) a b := by
  rw [hasEdge_iff_dfind2] at h ⊢
  obtain ⟨x, hx⟩ := h
  rw [dfind2_resSetd]
  by_cases hc : a = v ∧ b = u ∧ ¬ hasEdge res v u
  · exact ⟨0, if_pos hc ▸ rfl⟩
  · exact ⟨x, by rw [if_neg hc]; exact hx⟩

theorem hasEdge_resSetd_self (res : Graph) (v u : String) :
    hasEdge (resSetd res v u) v u := by
  rw [hasEdge_iff_dfind2]
  rw [dfind2_resSetd]
  by_cases hc : hasEdge res v u
  · rw [if_neg (by rintro ⟨-, -, hn⟩; exact hn hc)]
    exact (hasEdge_iff_dfind2 res v u).1 hc
  · exact ⟨0, by rw [if_pos ⟨rfl, rfl, hc⟩]⟩

/-- Invariant carried through the reverse-edge fill-in loops of
_build_residual. -/
structure BRInv (g : Graph) (res : Graph) : Prop where
  keys_eq : dkeys res = dkeys g
  rows_nodup : ∀ p ∈ res, (dkeys p.2).Nodup
  orig_present : ∀ a b, hasEdge g a b → hasEdge res a b
  entry_adj : ∀ a b, hasEdge res a b → adj g a b
  orig_val : ∀ a b, hasEdge g a b → dfind2 res a b = dfind2 g a b
  rev_val : ∀ a b, hasEdge res a b → ¬ hasEdge g a b → dfind2 res a b = some 0

theorem BRInv_init {g : Graph} (hwf : WFGraph g) : BRInv g g where
  keys_eq := rfl
  rows_nodup := hwf.2.1
  orig_present := fun _ _ h => h
  entry_adj := fun _ _ h => .inl h
  orig_val := fun _ _ _ => rfl
  rev_val := fun _ _ h hn => absurd h hn

theorem BRInv_step {g res : Graph} (hwf : WFGraph g) (inv : BRInv g res)
    {v u : String} (hadj : adj g v u) : BRInv g (resSetd res v u) where
  keys_eq := by
    rw [dkeys_resSetd, inv.keys_eq, if_pos ?_]
    rcases hadj with h | h
    · exact hasEdge_src_mem h
    · exact hasEdge_tgt_mem hwf h
  rows_nodup := rows_nodup_resSetd v u inv.rows_nodup
  orig_present := fun a b h => hasEdge_resSetd_mono v u (inv.orig_present a b h)
  entry_adj := by
    intro a b h
    rw [hasEdge_iff_dfind2] at h
    obtain ⟨x, hx⟩ := h
    rw [dfind2_resSetd] at hx
    by_cases hc : a = v ∧ b = u ∧ ¬ hasEdge res v u
    · rw [hc.1, hc.2.1]
      exact hadj
    · rw [if_neg hc] at hx
      exact inv.entry_adj a b ((hasEdge_iff_dfind2 res a b).2 ⟨x, hx⟩)
  orig_val := by
    intro a b h
    rw [dfind2_resSetd, if_neg ?_]
    · exact inv.orig_val a b h
    · rintro ⟨ha, hb, hn⟩
      exact hn (ha ▸ hb ▸ inv.orig_present a b h)
  rev_val := by
    intro a b h hn
    rw [dfind2_resSetd]
    by_cases hc : a = v ∧ b = u ∧ ¬ hasEdge res v u
    · rw [if_pos hc]
    · rw [if_neg hc]
      rw [hasEdge_iff_dfind2] at h
      obtain ⟨x, hx⟩ := h
      rw [dfind2_resSetd, if_neg hc] at hx
      exact inv.rev_val a b ((hasEdge_iff_dfind2 res a b).2 ⟨x, hx⟩) hn

theorem hasEdge_innerFold_mono (u : String) (l : List String) :
    ∀ (res : Graph) {a b : String}, hasEdge res a b →
      hasEdge (l.foldl (fun r v => resSetd r v u) res) a b := by
  induction l with
  | nil => exact fun res _ _ h => h
  | cons x l ihl =>
    intro res a b h
    simp only [List.foldl_cons]
    exact ihl _ (hasEdge_resSetd_mono x u h)

theorem innerFold_inv {g : Graph} (hwf : WFGraph g) (u : String) :
    ∀ (l : List String) (res : Graph), BRInv g res → (∀ v ∈ l, adj g u v) →
      BRInv g (l.foldl (fun r v => resSetd r v u) res) ∧
      ∀ v ∈ l, hasEdge (l.foldl (fun r v => resSetd r v u) res) v u := by
  intro l
  induction l with
  | nil => exact fun res inv _ => ⟨inv, by simp⟩
  | cons v l ih =>
    intro res inv hl
    have hadj : adj g v u := by
      rcases hl v (List.mem_cons_self _ _) with h | h
      · exact .inr h
      · exact .inl h
    have inv' := BRInv_step hwf inv hadj
    have hrec := ih (resSetd res v u) inv' (fun w hw => hl w (List.mem_cons_of_mem _ hw))
    refine ⟨hrec.1, ?_⟩
    intro w hw
    rcases List.mem_cons.1 hw with hwv | hwl
    · subst hwv
      simp only [List.foldl_cons]
      exact hasEdge_innerFold_mono u l _ (hasEdge_resSetd_self res w u)
    · exact hrec.2 w hwl

/-- The outer step of the fill-in loop for a single source node u. -/
def stepU (res : Graph) (u : String) : Graph :=
  (dkeys (dget res u [])).foldl (fun r v => resSetd r v u) res

theorem hasEdge_stepU_mono {res : Graph} {a b : String} (u : String)
    (h : hasEdge res a b) : hasEdge (stepU res u) a b := by
  unfold stepU
  generalize dkeys (dget res u []) = l
  induction l generalizing res with
  | nil => exact h
  | cons x l ihl =>
    simp only [List.foldl_cons]
    exact ihl (hasEdge_resSetd_mono x u h)

theorem hasEdge_outerFoldU_mono (l : List String) :
    ∀ (res : Graph) {a b : String}, hasEdge res a b →
      hasEdge (l.foldl stepU res) a b := by
  induction l with
  | nil => exact fun res _ _ h => h
  | cons x l ihl =>
    intro res a b h
    simp only [List.foldl_cons]
    exact ihl _ (hasEdge_stepU_mono x h)

theorem outerFold_inv {g : Graph} (hwf : WFGraph g) :
    ∀ (l : List String) (res : Graph), BRInv g res →
      BRInv g (l.foldl stepU res) ∧
      ∀ u ∈ l, ∀ v, hasEdge g u v → hasEdge (l.foldl stepU res) v u := by
  intro l
  induction l with
  | nil => exact fun res inv => ⟨inv, by simp⟩
  | cons u l ih =>
    intro res inv
    have hsnap : ∀ v ∈ dkeys (dget res u []), adj g u v := by
      intro v hv
      exact inv.entry_adj u v (mem_row_hasEdge hv)
    have hinner := innerFold_inv hwf u (dkeys (dget res u [])) res inv hsnap
    have hrec := ih (stepU res u) hinner.1
    refine ⟨hrec.1, ?_⟩
    intro w hw v hedge
    rcases List.mem_cons.1 hw with hwu | hwl
    · subst hwu
      have hres : hasEdge res w v := inv.orig_present w v hedge
      have hmem : v ∈ dkeys (dget res w []) := hasEdge_mem_row hres
      have hstep : hasEdge (stepU res w) v w := hinner.2 v hmem
      simp only [List.foldl_cons]
      exact hasEdge_outerFoldU_mono l _ hstep
    · exact hrec.2 w hwl v hedge

/-- Full characterisation of the residual builder. -/
theorem buildResidual_inv {g : Graph} (hwf : WFGraph g) :
    BRInv g (buildResidual g) ∧
      ∀ u v, hasEdge g u v → hasEdge (buildResidual g) v u := by
  have h := outerFold_inv hwf (dkeys g) g (BRInv_init hwf)
  have hbr : buildResidual g = (dkeys g).foldl stepU g := by
    unfold buildResidual stepU
    rfl
  rw [hbr]
  exact ⟨h.1, fun u v he => h.2 u (hasEdge_src_mem he) v he⟩

theorem buildResidual_hasEdge_iff {g : Graph} (hwf : WFGraph g) (a b : String) :
    hasEdge (buildResidual g) a b ↔ adj g a b := by
  obtain ⟨inv, hrev⟩ := buildResidual_inv hwf
  constructor
  · exact inv.entry_adj a b
  · rintro (h | h)
    · exact inv.orig_present a b h
    · exact hrev b a h

/-- The residual builder preserves every capacity value: original edges keep
their capacity, installed reverse entries carry 0 (= the absent-edge
capacity of g). -/
theorem buildResidual_cap {g : Graph} (hwf : WFGraph g) (a b : String) :
    cap (buildResidual g) a b = cap g a b := by
  obtain ⟨inv, hrev⟩ := buildResidual_inv hwf
  by_cases he : hasEdge g a b
  · obtain ⟨x, hx⟩ := (hasEdge_iff_dfind2 g a b).1 he
    rw [cap_of_dfind2 ((inv.orig_val a b he).trans hx), cap_of_dfind2 hx]
  · rw [cap_eq_zero_of_not_hasEdge he]
    by_cases hr : hasEdge (buildResidual g) a b
    · exact cap_of_dfind2 (inv.rev_val a b hr he)
    · exact cap_of_dfind2_none (dfind2_none_of_not_hasEdge hr)

/-! ### The parent map and the walk back from the sink -/

/-- Consecutive pairs of a sink-first path, as directed edges (parent, child):
the list element pair (x, u) — u following x — is the path edge u→x. -/
def pathEdges : List String → List (String × String)
  | x :: u :: rest => (u, x) :: pathEdges (u :: rest)
  | _ => []

theorem dset_append_of_not_mem {d : SDict α} {k : String} (v : α)
    (h : k ∉ dkeys d) : dset d k v = d ++ [(k, v)] := by
  induction d with
  | nil => rfl
  | cons p rest ih =>
    obtain ⟨k1, w⟩ := p
    simp only [dkeys_cons, List.mem_cons] at h
    push_neg at h
    have hne : ¬ k1 = k := fun he => h.1 he.symm
    simp only [dset, if_neg hne, List.cons_append, List.cons.injEq, true_and]
    exact ih h.2

theorem dfind?_append_left {d d2 : SDict α} {w : String} (hm : w ∈ dkeys d) :
    dfind? (d ++ d2) w = dfind? d w := by
  induction d with
  | nil => simp at hm
  | cons p rest ih =>
    obtain ⟨k1, w1⟩ := p
    rw [List.cons_append, dfind?_cons, dfind?_cons]
    by_cases hk : k1 = w
    · rw [if_pos hk, if_pos hk]
    · rw [if_neg hk, if_neg hk]
      simp only [dkeys_cons, List.mem_cons] at hm
      exact ih (hm.resolve_left fun he => hk he.symm)

theorem dfind?_append_right {d : SDict α} {w : String} (hm : w ∉ dkeys d)
    (d2 : SDict α) : dfind? (d ++ d2) w = dfind? d2 w := by
  induction d with
  | nil => rfl
  | cons p rest ih =>
    obtain ⟨k1, w1⟩ := p
    simp only [dkeys_cons, List.mem_cons] at hm
    push_neg at hm
    rw [List.cons_append, dfind?_cons, if_neg (fun he => hm.1 he.symm)]
    exact ih hm.2

theorem dkeys_append (d d2 : SDict α) : dkeys (d ++ d2) = dkeys d ++ dkeys d2 := by
  unfold dkeys
  exact List.map_append _ _ _

/-- Well-formedness of the BFS parent map over residual graph R rooted at s:
unique keys, s is the unique root (value none), and every other entry points
to an earlier key joined by a positive-capacity residual edge. -/
structure PWF (R : Graph) (s : String) (parent : SDict (Option String)) : Prop where
  nodup : (dkeys parent).Nodup
  root : dfind? parent s = some none
  root_only : ∀ v, dfind? parent v = some none → v = s
  chain : ∀ v u, dfind? parent v = some (some u) →
    u ∈ dkeys parent ∧
    (dkeys parent).indexOf u < (dkeys parent).indexOf v ∧
    hasEdge R u v ∧ 0 < cap R u v
  src : ∀ v ∈ dkeys parent, v = s ∨ ∃ u, hasEdge R u v ∧ 0 < cap R u v

theorem PWF_init {R : Graph} (s : String) : PWF R s [(s, none)] where
  nodup := by simp
  root := by simp [dfind?]
  root_only := by
    intro v h
    rw [dfind?_cons] at h
    by_cases hv : s = v
    · exact hv.symm
    · rw [if_neg hv] at h
      exact Option.noConfusion h
  chain := by
    intro v u h
    rw [dfind?_cons] at h
    by_cases hv : s = v
    · rw [if_pos hv] at h
      exact Option.noConfusion (Option.some.inj h)
    · rw [if_neg hv] at h
      exact Option.noConfusion h
  src := by
    intro v hv
    simp only [dkeys_cons, dkeys_nil, List.mem_cons, List.not_mem_nil, or_false] at hv
    exact .inl hv

/-- The lookup table of a parent map extended by one fresh entry. -/
theorem dfind?_parent_append {parent : SDict (Option String)} {v : String}
    (po : Option String) (hfresh : v ∉ dkeys parent) (w : String) :
    dfind? (parent ++ [(v, po)]) w =
      if w ∈ dkeys parent then dfind? parent w
      else if v = w then some po else none := by
  by_cases hm : w ∈ dkeys parent
  · rw [if_pos hm, dfind?_append_left hm]
  · rw [if_neg hm, dfind?_append_right hm, dfind?_cons]
    by_cases hv : v = w
    · rw [if_pos hv, if_pos hv]
    · rw [if_neg hv, if_neg hv, dfind?_nil]

/-- Appending a fresh child entry preserves parent-map well-formedness. -/
theorem PWF_append {R : Graph} {s : String} {parent : SDict (Option String)}
    (hP : PWF R s parent) {v u : String} (hfresh : v ∉ dkeys parent)
    (hu : u ∈ dkeys parent) (hedge : hasEdge R u v) (hcap : 0 < cap R u v) :
    PWF R s (parent ++ [(v, some u)]) := by
  have hkeys : dkeys (parent ++ [(v, some u)]) = dkeys parent ++ [v] := by
    rw [dkeys_append]
    rfl
  have hfind := dfind?_parent_append (some u) hfresh
  refine ⟨?_, ?_, ?_, ?_, ?_⟩
  · rw [hkeys]
    simp [List.nodup_append, hfresh, hP.nodup]
  · rw [hfind, if_pos (mem_dkeys_of_dfind? hP.root)]
    exact hP.root
  · intro w hw
    rw [hfind] at hw
    by_cases hm : w ∈ dkeys parent
    · rw [if_pos hm] at hw
      exact hP.root_only w hw
    · rw [if_neg hm] at hw
      by_cases hvw : v = w
      · rw [if_pos hvw] at hw
        exact Option.noConfusion (Option.some.inj hw)
      · rw [if_neg hvw] at hw
        exact Option.noConfusion hw
  · intro w z hw
    rw [hfind] at hw
    by_cases hm : w ∈ dkeys parent
    · rw [if_pos hm] at hw
      obtain ⟨hz1, hz2, hz3, hz4⟩ := hP.chain w z hw
      refine ⟨?_, ?_, hz3, hz4⟩
      · rw [hkeys]
        exact List.mem_append_left _ hz1
      · rw [hkeys, List.indexOf_append_of_mem hz1, List.indexOf_append_of_mem hm]
        exact hz2
    · rw [if_neg hm] at hw
      by_cases hvw : v = w
      · rw [if_pos hvw] at hw
        subst hvw
        have hz : u = z := Option.some.inj (Option.some.inj hw)
        subst hz
        refine ⟨?_, ?_, hedge, hcap⟩
        · rw [hkeys]
          exact List.mem_append_left _ hu
        · rw [hkeys, List.indexOf_append_of_mem hu,
            List.indexOf_append_of_not_mem hfresh]
          have h1 : List.indexOf u (dkeys parent) < (dkeys parent).length :=
            List.indexOf_lt_length.2 hu
          have h2 : List.indexOf v [v] = 0 := by simp
          omega
      · rw [if_neg hvw] at hw
        exact Option.noConfusion hw
  · intro w hw
    rw [hkeys] at hw
    rcases List.mem_append.1 hw with h1 | h1
    · exact hP.src w h1
    · have hwv : w = v := by simpa using h1
      subst hwv
      exact .inr ⟨u, hedge, hcap⟩

theorem getLast?_cons_of_ne_nil {x : String} {l : List String} (h : l ≠ []) :
    (x :: l).getLast? = l.getLast? := by
  cases l with
  | nil => exact absurd rfl h
  | cons y l => rw [List.getLast?_cons_cons]

/-- The walk back along a well-formed parent map always succeeds, producing a
duplicate-free node list from the start node back to the root s, whose
consecutive pairs are positive-capacity residual edges. -/
theorem walkPath_ok {R : Graph} {s : String} {parent : SDict (Option String)}
    (hP : PWF R s parent) :
    ∀ (n : Nat) (v : String), v ∈ dkeys parent →
      (dkeys parent).indexOf v < n →
      ∃ p, walkPath parent n v = .ok p ∧
        p.head? = some v ∧ p.getLast? = some s ∧ p.Nodup ∧
        (∀ x ∈ p, x ∈ dkeys parent ∧
          (dkeys parent).indexOf x ≤ (dkeys parent).indexOf v) ∧
        (∀ e ∈ pathEdges p, hasEdge R e.1 e.2 ∧ 0 < cap R e.1 e.2) := by
  intro n
  induction n with
  | zero => intro v _ h; exact absurd h (Nat.not_lt_zero _)
  | succ n ih =>
    intro v hv hidx
    obtain ⟨po, hpo⟩ := dfind?_isSome_of_mem hv
    cases po with
    | none =>
      have hvs : v = s := hP.root_only v hpo
      refine ⟨[v], ?_, rfl, by rw [hvs]; rfl, by simp, ?_, by simp [pathEdges]⟩
      · simp only [walkPath, hpo]
      · intro x hx
        have : x = v := by simpa using hx
        subst this
        exact ⟨hv, le_refl _⟩
    | some u =>
      obtain ⟨hu, hlt, hedge, hcap⟩ := hP.chain v u hpo
      have hun : (dkeys parent).indexOf u < n := by
        have := List.indexOf_lt_length.2 hv
        omega
      obtain ⟨l, hl, hhead, hlast, hnd, hmem, hedges⟩ := ih u hu hun
      refine ⟨v :: l, ?_, rfl, ?_, ?_, ?_, ?_⟩
      · simp only [walkPath, hpo, hl]
      · rw [getLast?_cons_of_ne_nil (by
          intro hnil
          rw [hnil] at hhead
          exact Option.noConfusion hhead)]
        exact hlast
      · rw [List.nodup_cons]
        refine ⟨?_, hnd⟩
        intro hvin
        have := (hmem v hvin).2
        omega
      · intro x hx
        rcases List.mem_cons.1 hx with h1 | h1
        · subst h1
          exact ⟨hv, le_refl _⟩
        · obtain ⟨hx1, hx2⟩ := hmem x h1
          exact ⟨hx1, le_trans hx2 (le_of_lt hlt)⟩
      · cases l with
        | nil => exact absurd hhead (by simp)
        | cons w l2 =>
          have hwu : w = u := by simpa using hhead
          subst hwu
          intro e he
          rcases List.mem_cons.1 he with h1 | h1
          · rw [h1]
            exact ⟨hedge, hcap⟩
          · exact hedges e h1

theorem rlookE_eq (res : Graph) (u v : String) :
    rlookE res u v =
      match dfind2 res u v with
      | none => .error .keyError
      | some c => .ok c := by
  unfold rlookE dfind2
  cases dfind? res u with
  | none => rfl
  | some d => cases dfind? d v with
    | none => rfl
    | some c => rfl

theorem rlookE_of_hasEdge {res : Graph} {u v : String} (h : hasEdge res u v) :
    rlookE res u v = .ok (cap res u v) := by
  obtain ⟨x, hx⟩ := (hasEdge_iff_dfind2 res u v).1 h
  rw [rlookE_eq, hx, cap_of_dfind2 hx]

theorem pathCaps_ok {R : Graph} : ∀ (p : List String),
    (∀ e ∈ pathEdges p, hasEdge R e.1 e.2) →
    pathCaps R p = .ok ((pathEdges p).map (fun e => cap R e.1 e.2)) := by
  intro p
  induction p with
  | nil => intro _; rfl
  | cons x tail ih =>
    cases tail with
    | nil => intro _; rfl
    | cons u rest =>
      intro h
      have h1 : hasEdge R u x := (h (u, x) (by rw [pathEdges]; exact List.mem_cons_self _ _))
      have h2 := ih (fun e he => h e (by rw [pathEdges]; exact List.mem_cons_of_mem _ he))
      rw [show pathCaps R (x :: u :: rest) =
          (match rlookE R u x with
           | .error e => .error e
           | .ok c =>
             match pathCaps R (u :: rest) with
             | .error e => .error e
             | .ok cs => .ok (c :: cs)) from rfl]
      rw [rlookE_of_hasEdge h1, h2]
      rw [show pathEdges (x :: u :: rest) = (u, x) :: pathEdges (u :: rest) from rfl]
      rfl

theorem foldl_min_le_init : ∀ (cs : List Int) (c : Int), cs.foldl min c ≤ c := by
  intro cs
  induction cs with
  | nil => exact fun c => le_refl c
  | cons d cs ih =>
    intro c
    calc (d :: cs).foldl min c = cs.foldl min (min c d) := rfl
      _ ≤ min c d := ih (min c d)
      _ ≤ c := min_le_left _ _

theorem foldl_min_le_mem : ∀ (cs : List Int) (c x : Int), x ∈ cs → cs.foldl min c ≤ x := by
  intro cs
  induction cs with
  | nil => intro c x hx; simp at hx
  | cons d cs ih =>
    intro c x hx
    rcases List.mem_cons.1 hx with h1 | h1
    · subst h1
      calc (x :: cs).foldl min c = cs.foldl min (min c x) := rfl
        _ ≤ min c x := foldl_min_le_init cs (min c x)
        _ ≤ x := min_le_right _ _
    · exact ih (min c d) x h1

theorem foldl_min_le (c : Int) (cs : List Int) : ∀ x ∈ c :: cs, cs.foldl min c ≤ x := by
  intro x hx
  rcases List.mem_cons.1 hx with h1 | h1
  · subst h1
    exact foldl_min_le_init cs x
  · exact foldl_min_le_mem cs c x h1

theorem le_foldl_min {lb : Int} : ∀ (cs : List Int) (c : Int),
    (∀ x ∈ c :: cs, lb ≤ x) → lb ≤ cs.foldl min c := by
  intro cs
  induction cs with
  | nil => exact fun c h => h c (List.mem_cons_self _ _)
  | cons d cs ih =>
    intro c h
    rw [show (d :: cs).foldl min c = cs.foldl min (min c d) from rfl]
    refine ih (min c d) ?_
    intro x hx
    rcases List.mem_cons.1 hx with h1 | h1
    · subst h1
      exact le_min (h c (List.mem_cons_self _ _))
        (h d (List.mem_cons_of_mem _ (List.mem_cons_self _ _)))
    · exact h x (List.mem_cons_of_mem _ (List.mem_cons_of_mem _ h1))

theorem length_eq_dkeys_length (d : SDict α) : d.length = (dkeys d).length := by
  unfold dkeys
  exact (List.length_map _ _).symm

/-- Successful bottleneck reconstruction: the walk exists, and the computed
bottleneck is a positive lower bound of every residual capacity along it. -/
theorem mkPathResult_ok {R : Graph} {s : String} {parent : SDict (Option String)}
    (hP : PWF R s parent) {t : String} (ht : t ∈ dkeys parent) (hts : t ≠ s) :
    ∃ pr p, mkPathResult R parent t = .ok pr ∧ pr.parent = parent ∧
      pr.bottleneck = 1 ⊔ pr.bottleneck ∧
      walkPath parent parent.length t = .ok p ∧
      p.head? = some t ∧ p.getLast? = some s ∧ p.Nodup ∧
      (∀ x ∈ p, x ∈ dkeys parent) ∧
      pathEdges p ≠ [] ∧
      (∀ e ∈ pathEdges p, hasEdge R e.1 e.2 ∧ 0 < cap R e.1 e.2 ∧
        pr.bottleneck ≤ cap R e.1 e.2) ∧
      1 ≤ pr.bottleneck := by
  have hfuel : (dkeys parent).indexOf t < parent.length := by
    rw [length_eq_dkeys_length]
    exact List.indexOf_lt_length.2 ht
  obtain ⟨p, hwp, hhead, hlast, hnd, hmem, hedges⟩ :=
    walkPath_ok hP parent.length t ht hfuel
  have hne : pathEdges p ≠ [] := by
    cases p with
    | nil => exact absurd hhead (by simp)
    | cons x tail =>
      cases tail with
      | nil =>
        have hxt : x = t := by simpa using hhead
        have hxs : x = s := by simpa using hlast
        exact absurd (hxt.symm.trans hxs) hts
      | cons u rest =>
        rw [show pathEdges (x :: u :: rest) = (u, x) :: pathEdges (u :: rest) from rfl]
        exact List.cons_ne_nil _ _
  have hcapsok := pathCaps_ok p (fun e he => (hedges e he).1)
  cases hcs : (pathEdges p).map (fun e => cap R e.1 e.2) with
  | nil => exact absurd (List.map_eq_nil_iff.1 hcs) hne
  | cons c cs =>
    rw [hcs] at hcapsok
    have hbmem : ∀ e ∈ pathEdges p, cap R e.1 e.2 ∈ c :: cs := by
      intro e he
      rw [← hcs]
      exact List.mem_map_of_mem _ he
    have hall1 : ∀ x ∈ c :: cs, 1 ≤ x := by
      intro x hx
      rw [← hcs] at hx
      obtain ⟨e, he, hex⟩ := List.mem_map.1 hx
      rw [← hex]
      exact (hedges e he).2
    refine ⟨⟨cs.foldl min c, parent⟩, p, ?_, rfl, ?_, hwp, hhead, hlast, hnd,
      (fun x hx => (hmem x hx).1), hne, ?_, ?_⟩
    · simp only [mkPathResult, hwp, hcapsok, minCaps]
    · have h1 : 1 ≤ cs.foldl min c := le_foldl_min cs c hall1
      simp [sup_eq_right.2 h1]
    · intro e he
      exact ⟨(hedges e he).1, (hedges e he).2,
        foldl_min_le c cs _ (hbmem e he)⟩
    · exact le_foldl_min cs c hall1

/-! ### BFS soundness and completeness -/

/-- One residual step: positive remaining capacity on a present entry. -/
def stepR (R : Graph) (a b : String) : Prop := hasEdge R a b ∧ 0 < cap R a b

theorem not_reach_of_closed {R : Graph} {K : List String} {s t : String}
    (hs : s ∈ K) (ht : t ∉ K)
    (hcl : ∀ v ∈ K, ∀ w, stepR R v w → w ∈ K) :
    ¬ Relation.ReflTransGen (stepR R) s t := by
  intro h
  have hall : ∀ x, Relation.ReflTransGen (stepR R) s x → x ∈ K := by
    intro x hx
    induction hx with
    | refl => exact hs
    | tail h1 h2 ih => exact hcl _ ih _ h2
  exact ht (hall t h)

/-- All inner keys of the residual dictionary (with multiplicity). -/
def innerKeys : Graph → List String
  | [] => []
  | (_, d) :: rest => dkeys d ++ innerKeys rest

theorem subset_innerKeys {R : Graph} {u : String} {d : SDict Int}
    (h : (u, d) ∈ R) : ∀ v ∈ dkeys d, v ∈ innerKeys R := by
  induction R with
  | nil => simp at h
  | cons p rest ih =>
    obtain ⟨k, e⟩ := p
    intro v hv
    rcases List.mem_cons.1 h with h1 | h1
    · have hde : d = e := congrArg Prod.snd h1
      subst hde
      exact List.mem_append_left _ hv
    · exact List.mem_append_right _ (ih h1 v hv)

theorem mem_innerKeys_of_hasEdge {R : Graph} {u v : String}
    (h : hasEdge R u v) : v ∈ innerKeys R := by
  unfold hasEdge at h
  revert h
  cases hf : dfind? R u with
  | none => intro h; exact absurd h (fun hh => hh)
  | some d => intro h; exact subset_innerKeys (mem_of_dfind? hf) v h

theorem innerKeys_length (R : Graph) :
    (innerKeys R).length = (R.map (fun p => p.2.length)).sum := by
  induction R with
  | nil => rfl
  | cons p rest ih =>
    obtain ⟨k, d⟩ := p
    simp only [innerKeys, List.length_append, List.map_cons, List.sum_cons, ih]
    congr 1
    unfold dkeys
    exact List.length_map _ _

theorem dfind?_of_mem_nodup {d : SDict α} (hnd : (dkeys d).Nodup)
    {k : String} {v : α} (h : (k, v) ∈ d) : dfind? d k = some v := by
  induction d with
  | nil => simp at h
  | cons p rest ih =>
    obtain ⟨k1, w⟩ := p
    simp only [dkeys_cons, List.nodup_cons] at hnd
    rcases List.mem_cons.1 h with h1 | h1
    · have hk : k1 = k := (congrArg Prod.fst h1).symm
      have hw : w = v := (congrArg Prod.snd h1).symm
      rw [dfind?_cons, if_pos hk, hw]
    · rw [dfind?_cons, if_neg ?_]
      · exact ih hnd.2 h1
      · intro he
        subst he
        exact hnd.1 (List.mem_map_of_mem (·.1) h1)

/-- Everything BFS guarantees when it returns a path result. -/
def BfsFound (R : Graph) (s t : String) (pr : PathResult) : Prop :=
  PWF R s pr.parent ∧ t ∈ dkeys pr.parent ∧
  ∃ p, walkPath pr.parent pr.parent.length t = .ok p ∧
    p.head? = some t ∧ p.getLast? = some s ∧ p.Nodup ∧
    (∀ x ∈ p, x ∈ dkeys pr.parent) ∧
    pathEdges p ≠ [] ∧
    (∀ e ∈ pathEdges p, hasEdge R e.1 e.2 ∧ 0 < cap R e.1 e.2 ∧
      pr.bottleneck ≤ cap R e.1 e.2) ∧
    1 ≤ pr.bottleneck

theorem scanNbrs_nil (R : Graph) (t u : String) (parent : SDict (Option String))
    (q : List String) : scanNbrs R t u [] parent q = .ok (.inl (parent, q)) := rfl

theorem scanNbrs_cons (R : Graph) (t u v : String) (c : Int)
    (rest : List (String × Int)) (parent : SDict (Option String)) (q : List String) :
    scanNbrs R t u ((v, c) :: rest) parent q =
      if v ∉ dkeys parent ∧ 0 < c then
        if v = t then
          match mkPathResult R (dset parent v (some u)) t with
          | .error e => .error e
          | .ok pr => .ok (.inr pr)
        else scanNbrs R t u rest (dset parent v (some u)) (q ++ [v])
      else scanNbrs R t u rest parent q := rfl

theorem scanNbrs_spec {R : Graph} {s t u : String} :
    ∀ (nbrs : List (String × Int)) (parent : SDict (Option String)) (q : List String),
      PWF R s parent → u ∈ dkeys parent →
      (∀ v ∈ q, v ∈ dkeys parent) → q.Nodup →
      (∀ vc ∈ nbrs, hasEdge R u vc.1 ∧ cap R u vc.1 = vc.2) →
      match scanNbrs R t u nbrs parent q with
      | .error _ => False
      | .ok (.inr pr) => t ∉ dkeys parent ∧ BfsFound R s t pr
      | .ok (.inl (parent', q')) =>
          PWF R s parent' ∧ (t ∉ dkeys parent → t ∉ dkeys parent') ∧
          (∀ v ∈ q', v ∈ dkeys parent') ∧ q'.Nodup ∧
          (∀ a ∈ dkeys parent, a ∈ dkeys parent') ∧
          (∀ a ∈ q, a ∈ q') ∧
          (∀ a ∈ dkeys parent', a ∈ dkeys parent ∨ a ∈ q') ∧
          (∀ vc ∈ nbrs, 0 < vc.2 → vc.1 ∈ dkeys parent') ∧
          (∀ a ∈ q', a ∈ q ∨ a ∉ dkeys parent) ∧
          q'.length + (dkeys parent).length = q.length + (dkeys parent').length := by
  intro nbrs
  induction nbrs with
  | nil =>
    intro parent q hP hu hq hqnd _
    rw [scanNbrs_nil]
    exact ⟨hP, fun h => h, hq, hqnd, fun a ha => ha, fun a ha => ha, fun a ha => .inl ha,
      fun vc hvc hpos => absurd hvc (List.not_mem_nil _),
      fun a ha => .inl ha, rfl⟩
  | cons vc rest ih =>
    intro parent q hP hu hq hqnd hnbrs
    obtain ⟨v, c⟩ := vc
    have hhd := hnbrs (v, c) (List.mem_cons_self _ _)
    by_cases hcond : v ∉ dkeys parent ∧ 0 < c
    · have hfresh : v ∉ dkeys parent := hcond.1
      have hcap : 0 < cap R u v := by
        have hcc : cap R u v = c := hhd.2
        rw [hcc]
        exact hcond.2
      have happ : dset parent v (some u) = parent ++ [(v, some u)] :=
        dset_append_of_not_mem (some u) hfresh
      have hP2 : PWF R s (parent ++ [(v, some u)]) :=
        PWF_append hP hfresh hu hhd.1 hcap
      have hkeys2 : dkeys (parent ++ [(v, some u)]) = dkeys parent ++ [v] := by
        rw [dkeys_append]
        rfl
      by_cases hvt : v = t
      · have htnot : t ∉ dkeys parent := hvt ▸ hfresh
        have hts : t ≠ s := by
          intro he
          apply hfresh
          rw [hvt, he]
          exact mem_dkeys_of_dfind? hP.root
        have htm : t ∈ dkeys (parent ++ [(v, some u)]) := by
          rw [hkeys2]
          refine List.mem_append_right _ ?_
          simp [hvt]
        obtain ⟨pr, p, hmk, hprp, -, hrest⟩ := mkPathResult_ok hP2 htm hts
        rw [scanNbrs_cons, if_pos hcond, if_pos hvt, happ, hmk]
        have hBF : BfsFound R s t pr := by
          refine ⟨?_, ?_, p, ?_⟩
          · rw [hprp]
            exact hP2
          · rw [hprp]
            exact htm
          · rw [hprp]
            exact hrest
        exact ⟨htnot, hBF⟩
      · have hvq : v ∉ q := fun hin => hfresh (hq v hin)
        have hu2 : u ∈ dkeys (parent ++ [(v, some u)]) := by
          rw [hkeys2]
          exact List.mem_append_left _ hu
        have hq2 : ∀ w ∈ q ++ [v], w ∈ dkeys (parent ++ [(v, some u)]) := by
          intro w hw
          rw [hkeys2]
          rcases List.mem_append.1 hw with h1 | h1
          · exact List.mem_append_left _ (hq w h1)
          · exact List.mem_append_right _ (by simpa using h1)
        have hqnd2 : (q ++ [v]).Nodup := by
          simp [List.nodup_append, hqnd, hvq]
        have hrec := ih (parent ++ [(v, some u)]) (q ++ [v]) hP2 hu2 hq2 hqnd2
          (fun wc hwc => hnbrs wc (List.mem_cons_of_mem _ hwc))
        have ht2 : t ∉ dkeys parent → t ∉ dkeys (parent ++ [(v, some u)]) := by
          intro ht hmem
          rw [hkeys2] at hmem
          rcases List.mem_append.1 hmem with h1 | h1
          · exact ht h1
          · have h1v : t = v := by simpa using h1
            exact hvt h1v.symm
        rw [scanNbrs_cons, if_pos hcond, if_neg hvt, happ]
        revert hrec
        cases hscan : scanNbrs R t u rest (parent ++ [(v, some u)]) (q ++ [v]) with
        | error e => exact fun h => h
        | ok out =>
          cases out with
          | inr pr =>
            rintro ⟨hnt, hBF⟩
            refine ⟨?_, hBF⟩
            intro htp
            apply hnt
            rw [hkeys2]
            exact List.mem_append_left _ htp
          | inl pq =>
            obtain ⟨parent', q'⟩ := pq
            rintro ⟨h1, h2, h3, h4, h5, h5q, h5n, h6, h7, h8⟩
            have hmono : ∀ a ∈ dkeys parent, a ∈ dkeys parent' := by
              intro a ha
              exact h5 a (hkeys2 ▸ List.mem_append_left _ ha)
            have hqmono : ∀ a ∈ q, a ∈ q' :=
              fun a ha => h5q a (List.mem_append_left _ ha)
            refine ⟨h1, fun ht => h2 (ht2 ht), h3, h4, hmono, hqmono, ?_, ?_, ?_, ?_⟩
            · intro a ha
              rcases h5n a ha with hh | hh
              · rw [hkeys2] at hh
                rcases List.mem_append.1 hh with h9 | h9
                · exact .inl h9
                · have hav : a = v := by simpa using h9
                  rw [hav]
                  exact .inr (h5q v (List.mem_append_right _ (by simp)))
              · exact .inr hh
            · intro wc hwc hpos
              rcases List.mem_cons.1 hwc with hh | hh
              · rw [hh]
                exact h5 v (hkeys2 ▸ List.mem_append_right _ (by simp))
              · exact h6 wc hh hpos
            · intro a ha
              rcases h7 a ha with hh | hh
              · rcases List.mem_append.1 hh with h9 | h9
                · exact .inl h9
                · have hav : a = v := by simpa using h9
                  subst hav
                  exact .inr hfresh
              · refine .inr ?_
                intro hak
                exact hh (hkeys2 ▸ List.mem_append_left _ hak)
            · rw [hkeys2] at h8
              simp only [List.length_append, List.length_cons, List.length_nil] at h8 ⊢
              omega
    · have hrec := ih parent q hP hu hq hqnd
        (fun wc hwc => hnbrs wc (List.mem_cons_of_mem _ hwc))
      rw [scanNbrs_cons, if_neg hcond]
      revert hrec
      cases hscan : scanNbrs R t u rest parent q with
      | error e => exact fun h => h
      | ok out =>
        cases out with
        | inr pr => exact fun h => h
        | inl pq =>
          obtain ⟨parent', q'⟩ := pq
          rintro ⟨h1, h2, h3, h4, h5, h5q, h5n, h6, h7, h8⟩
          refine ⟨h1, h2, h3, h4, h5, h5q, h5n, ?_, h7, h8⟩
          intro wc hwc hpos
          rcases List.mem_cons.1 hwc with hh | hh
          · rw [hh] at hpos ⊢
            have hvmem : v ∈ dkeys parent := by
              by_contra hnm
              exact hcond ⟨hnm, hpos⟩
            exact h5 v hvmem
          · exact h6 wc hh hpos


theorem nodup_subset_length_le {l l2 : List String} (hnd : l.Nodup)
    (hsub : ∀ x ∈ l, x ∈ l2) : l.length ≤ l2.length := by
  calc l.length = l.toFinset.card := (List.toFinset_card_of_nodup hnd).symm
    _ ≤ l2.toFinset.card := Finset.card_le_card (fun x hx =>
        List.mem_toFinset.2 (hsub x (List.mem_toFinset.1 hx)))
    _ ≤ l2.length := l2.toFinset_card_le

theorem pwf_keys_bound {R : Graph} {s : String} {parent : SDict (Option String)}
    (hP : PWF R s parent) :
    (dkeys parent).length ≤ 1 + (innerKeys R).length := by
  have hb := @nodup_subset_length_le (dkeys parent) (s :: innerKeys R) hP.nodup ?_
  · simp only [List.length_cons] at hb
    omega
  · intro x hx
    rcases hP.src x hx with h | ⟨u, h1, h2⟩
    · rw [h]
      exact List.mem_cons_self _ _
    · exact List.mem_cons_of_mem _ (mem_innerKeys_of_hasEdge h1)

theorem bfsLoop_zero (R : Graph) (t : String) (q : List String)
    (parent : SDict (Option String)) :
    bfsLoop R t 0 q parent = .error .fuelExhausted := rfl

theorem bfsLoop_succ_nil (R : Graph) (t : String) (fuel : Nat)
    (parent : SDict (Option String)) :
    bfsLoop R t (fuel + 1) [] parent = .ok none := rfl

theorem bfsLoop_succ_cons (R : Graph) (t : String) (fuel : Nat) (u : String)
    (q : List String) (parent : SDict (Option String)) :
    bfsLoop R t (fuel + 1) (u :: q) parent =
      match dfind? R u with
      | none => .error .keyError
      | some nbrs =>
        match scanNbrs R t u nbrs parent q with
        | .error e => .error e
        | .ok (.inr pr) => .ok (some pr)
        | .ok (.inl (parent', q')) => bfsLoop R t fuel q' parent' := rfl

theorem bfsLoop_succ_cons2 (R : Graph) (t : String) (fuel : Nat) (u : String)
    (q : List String) (parent : SDict (Option String)) {nbrs : SDict Int}
    (hnbrs : dfind? R u = some nbrs) :
    bfsLoop R t (fuel + 1) (u :: q) parent =
      match scanNbrs R t u nbrs parent q with
      | .error e => .error e
      | .ok (.inr pr) => .ok (some pr)
      | .ok (.inl (parent', q')) => bfsLoop R t fuel q' parent' := by
  rw [bfsLoop_succ_cons, hnbrs]

/-- Master lemma for the BFS while-loop: under the state invariant it never
fails, and it returns None exactly when the sink is unreachable through
positive residual capacities. -/
theorem bfsLoop_spec {R : Graph} {s t : String}
    (hrn : ∀ p ∈ R, (dkeys p.2).Nodup)
    (hink : ∀ v ∈ innerKeys R, v ∈ dkeys R)
    (hsR : s ∈ dkeys R) :
    ∀ (fuel : Nat) (q : List String) (parent : SDict (Option String)),
      PWF R s parent → t ∉ dkeys parent →
      (∀ v ∈ q, v ∈ dkeys parent) → q.Nodup →
      (∀ v ∈ dkeys parent, v ∉ q → ∀ w, stepR R v w → w ∈ dkeys parent) →
      q.length + (1 + (innerKeys R).length - (dkeys parent).length) < fuel →
      match bfsLoop R t fuel q parent with
      | .error _ => False
      | .ok none => ¬ Relation.ReflTransGen (stepR R) s t
      | .ok (some pr) => BfsFound R s t pr := by
  intro fuel
  induction fuel with
  | zero =>
    intro q parent _ _ _ _ _ hfuel
    exact absurd hfuel (by omega)
  | succ fuel ih =>
    intro q parent hP ht hq hqnd hclosed hfuel
    cases q with
    | nil =>
      rw [bfsLoop_succ_nil]
      refine not_reach_of_closed (K := dkeys parent)
        (mem_dkeys_of_dfind? hP.root) ht ?_
      intro v hv w hw
      exact hclosed v hv (List.not_mem_nil _) w hw
    | cons u qtail =>
      have hu : u ∈ dkeys parent := hq u (List.mem_cons_self _ _)
      have huR : u ∈ dkeys R := by
        rcases hP.src u hu with h | ⟨w, h1, h2⟩
        · rw [h]
          exact hsR
        · exact hink u (mem_innerKeys_of_hasEdge h1)
      obtain ⟨nbrs, hnbrs⟩ := dfind?_isSome_of_mem huR
      have hnbrsrow : ∀ vc ∈ nbrs, hasEdge R u vc.1 ∧ cap R u vc.1 = vc.2 := by
        intro vc hvc
        obtain ⟨v, c⟩ := vc
        have hfv : dfind? nbrs v = some c :=
          dfind?_of_mem_nodup (hrn (u, nbrs) (mem_of_dfind? hnbrs)) hvc
        have hd2 : dfind2 R u v = some c := by
          unfold dfind2
          rw [hnbrs]
          exact hfv
        exact ⟨(hasEdge_iff_dfind2 R u v).2 ⟨c, hd2⟩, cap_of_dfind2 hd2⟩
      have hscan := scanNbrs_spec (s := s) (t := t) nbrs parent qtail hP hu
        (fun v hv => hq v (List.mem_cons_of_mem _ hv))
        ((List.nodup_cons.1 hqnd).2) hnbrsrow
      rw [bfsLoop_succ_cons2 R t fuel u qtail parent hnbrs]
      revert hscan
      cases hres : scanNbrs R t u nbrs parent qtail with
      | error e => exact fun h => h
      | ok out =>
        cases out with
        | inr pr => exact fun h => h.2
        | inl pq =>
          obtain ⟨parent', q'⟩ := pq
          rintro ⟨h1, h2, h3, h4, h5, h5q, h5n, h6, h7, h8⟩
          refine ih q' parent' h1 (h2 ht) h3 h4 ?_ ?_
          · -- closure of the processed set grows correctly
            intro v hv hvq w hw
            rcases h5n v hv with hvp | hvp
            · by_cases hvu : v = u
              · subst hvu
                obtain ⟨x, hx⟩ := (hasEdge_iff_dfind2 R v w).1 hw.1
                have hxrow : dfind? nbrs w = some x := by
                  unfold dfind2 at hx
                  rw [hnbrs] at hx
                  exact hx
                have hmemrow : (w, x) ∈ nbrs := mem_of_dfind? hxrow
                refine h6 (w, x) hmemrow ?_
                have hcx : cap R v w = x := (hnbrsrow (w, x) hmemrow).2
                rw [← hcx]
                exact hw.2
              · have hvqt : v ∉ qtail := by
                  intro hin
                  exact hvq (h5q v hin)
                have hvqold : v ∉ u :: qtail := by
                  intro hin
                  rcases List.mem_cons.1 hin with h9 | h9
                  · exact hvu h9
                  · exact hvqt h9
                exact h5 w (hclosed v hvp hvqold w hw)
            · exact absurd hvp hvq
          · -- fuel accounting
            have hple : (dkeys parent).length ≤ (dkeys parent').length :=
              nodup_subset_length_le hP.nodup h5
            have hbound : (dkeys parent').length ≤ 1 + (innerKeys R).length :=
              pwf_keys_bound h1
            simp only [List.length_cons] at hfuel
            omega

/-- _bfs_augment never fails and is sound and complete, for any residual
dictionary satisfying the structural conditions. -/
theorem bfsAugment_spec {R : Graph} {s t : String}
    (hrn : ∀ p ∈ R, (dkeys p.2).Nodup)
    (hink : ∀ v ∈ innerKeys R, v ∈ dkeys R)
    (hsR : s ∈ dkeys R) (hts : t ≠ s) :
    match bfsAugment R s t with
    | .error _ => False
    | .ok none => ¬ Relation.ReflTransGen (stepR R) s t
    | .ok (some pr) => BfsFound R s t pr := by
  have hR1 : 1 ≤ R.length := by
    cases R with
    | nil => simp at hsR
    | cons p rest => simp
  have hfuel : ([s] : List String).length +
      (1 + (innerKeys R).length - (dkeys [((s : String), (none : Option String))]).length)
        < bfsFuel R := by
    unfold bfsFuel
    rw [← innerKeys_length]
    simp only [List.length_singleton, dkeys_cons, dkeys_nil, List.length_cons,
      List.length_nil]
    omega
  exact bfsLoop_spec hrn hink hsR (bfsFuel R) [s] [(s, none)] (PWF_init s)
    (by
      intro hmem
      simp only [dkeys_cons, dkeys_nil, List.mem_cons, List.not_mem_nil, or_false] at hmem
      exact hts hmem)
    (by
      intro v hv
      have : v = s := by simpa using hv
      rw [this]
      simp)
    (by simp)
    (by
      intro v hv hvq w hw
      have : v = s := by simpa using hv
      subst this
      exact absurd (List.mem_singleton.2 rfl) hvq)
    hfuel

/-- When the sink is already registered in the parent map (in particular when
it equals the source), BFS can never report a path: the freshness test
`v not in parent` rules the sink out, so the queue drains and None returns. -/
theorem bfsLoop_self {R : Graph} {s t : String}
    (hrn : ∀ p ∈ R, (dkeys p.2).Nodup)
    (hink : ∀ v ∈ innerKeys R, v ∈ dkeys R)
    (hsR : s ∈ dkeys R) :
    ∀ (fuel : Nat) (q : List String) (parent : SDict (Option String)),
      PWF R s parent → t ∈ dkeys parent →
      (∀ v ∈ q, v ∈ dkeys parent) → q.Nodup →
      q.length + (1 + (innerKeys R).length - (dkeys parent).length) < fuel →
      bfsLoop R t fuel q parent = .ok none := by
  intro fuel
  induction fuel with
  | zero =>
    intro q parent _ _ _ _ hfuel
    exact absurd hfuel (by omega)
  | succ fuel ih =>
    intro q parent hP ht hq hqnd hfuel
    cases q with
    | nil => rw [bfsLoop_succ_nil]
    | cons u qtail =>
      have hu : u ∈ dkeys parent := hq u (List.mem_cons_self _ _)
      have huR : u ∈ dkeys R := by
        rcases hP.src u hu with h | ⟨w, h1, h2⟩
        · rw [h]
          exact hsR
        · exact hink u (mem_innerKeys_of_hasEdge h1)
      obtain ⟨nbrs, hnbrs⟩ := dfind?_isSome_of_mem huR
      have hnbrsrow : ∀ vc ∈ nbrs, hasEdge R u vc.1 ∧ cap R u vc.1 = vc.2 := by
        intro vc hvc
        obtain ⟨v, c⟩ := vc
        have hfv : dfind? nbrs v = some c :=
          dfind?_of_mem_nodup (hrn (u, nbrs) (mem_of_dfind? hnbrs)) hvc
        have hd2 : dfind2 R u v = some c := by
          unfold dfind2
          rw [hnbrs]
          exact hfv
        exact ⟨(hasEdge_iff_dfind2 R u v).2 ⟨c, hd2⟩, cap_of_dfind2 hd2⟩
      have hscan := scanNbrs_spec (s := s) (t := t) nbrs parent qtail hP hu
        (fun v hv => hq v (List.mem_cons_of_mem _ hv))
        ((List.nodup_cons.1 hqnd).2) hnbrsrow
      rw [bfsLoop_succ_cons2 R t fuel u qtail parent hnbrs]
      revert hscan
      cases hres : scanNbrs R t u nbrs parent qtail with
      | error e => exact fun h => absurd h (fun hh => hh)
      | ok out =>
        cases out with
        | inr pr => exact fun h => absurd ht h.1
        | inl pq =>
          obtain ⟨parent', q'⟩ := pq
          rintro ⟨h1, h2, h3, h4, h5, h5q, h5n, h6, h7, h8⟩
          refine ih q' parent' h1 (h5 t ht) h3 h4 ?_
          have hple : (dkeys parent).length ≤ (dkeys parent').length :=
            nodup_subset_length_le hP.nodup h5
          have hbound : (dkeys parent').length ≤ 1 + (innerKeys R).length :=
            pwf_keys_bound h1
          simp only [List.length_cons] at hfuel
          omega

/-- _bfs_augment from a node to itself always reports no augmenting path. -/
theorem bfsAugment_self {R : Graph} {s : String}
    (hrn : ∀ p ∈ R, (dkeys p.2).Nodup)
    (hink : ∀ v ∈ innerKeys R, v ∈ dkeys R)
    (hsR : s ∈ dkeys R) :
    bfsAugment R s s = .ok none := by
  have hR1 : 1 ≤ R.length := by
    cases R with
    | nil => simp at hsR
    | cons p rest => simp
  refine bfsLoop_self hrn hink hsR (bfsFuel R) [s] [(s, none)] (PWF_init s)
    (by simp) ?_ (by simp) ?_
  · intro v hv
    have hvs : v = s := by simpa using hv
    rw [hvs]
    simp
  · unfold bfsFuel
    rw [← innerKeys_length]
    simp only [List.length_singleton, dkeys_cons, dkeys_nil, List.length_cons,
      List.length_nil]
    omega

/-! ### The augmentation walk -/

/-- Total form of one augmentation update pair:
`res[u][x] -= aug; res[x][u] += aug` (defined when both entries exist). -/
def pushEdge (R : Graph) (u x : String) (aug : Int) : Graph :=
  let R1 := dset R u (dset (dget R u []) x (cap R u x - aug))
  dset R1 x (dset (dget R1 x []) u (cap R1 x u + aug))

/-- The edge updates performed along a sink-first path, in walk order. -/
def updRev (aug : Int) : List String → Graph → Graph
  | x :: u :: rest, R => updRev aug (u :: rest) (pushEdge R u x aug)
  | _, R => R

theorem cap_dset_row (R : Graph) (u : String) (row : SDict Int) (a b : String) :
    cap (dset R u row) a b = if a = u then dget row b 0 else cap R a b := by
  rw [cap_eq, dget_eq]
  by_cases ha : a = u
  · subst ha
    rw [dfind?_dset_self]
    simp [dget_eq]
  · rw [dfind?_dset_ne _ _ _ _ (fun h => ha h.symm), if_neg ha, cap_eq, dget_eq]

theorem hasEdge_dset_row (R : Graph) (u : String) (row : SDict Int) (a b : String) :
    hasEdge (dset R u row) a b ↔ (if a = u then b ∈ dkeys row else hasEdge R a b) := by
  unfold hasEdge
  by_cases ha : a = u
  · subst ha
    rw [dfind?_dset_self, if_pos rfl]
  · rw [dfind?_dset_ne _ _ _ _ (fun h => ha h.symm), if_neg ha]

theorem dget_dset_row_ne (R : Graph) (u : String) (row : SDict Int) (a : String)
    (ha : a ≠ u) : dget (dset R u row) a [] = dget R a [] := by
  rw [dget_eq, dfind?_dset_ne _ _ _ _ (fun h => ha h.symm), dget_eq]

theorem dget_dset_row_self (R : Graph) (u : String) (row : SDict Int) :
    dget (dset R u row) u [] = row := by
  rw [dget_eq, dfind?_dset_self]
  rfl

/-- Pointwise capacity effect of pushEdge. -/
theorem pushEdge_cap {R : Graph} {u x : String} (hne : u ≠ x) (aug : Int) :
    ∀ a b, cap (pushEdge R u x aug) a b =
      cap R a b - (if a = u ∧ b = x then aug else 0)
        + (if a = x ∧ b = u then aug else 0) := by
  have hR1cap : ∀ a b, cap (dset R u (dset (dget R u []) x (cap R u x - aug))) a b =
      cap R a b - (if a = u ∧ b = x then aug else 0) := by
    intro a b
    rw [cap_dset_row]
    by_cases ha : a = u
    · subst ha
      rw [if_pos rfl]
      by_cases hb : b = x
      · subst hb
        rw [dget_dset_self, if_pos ⟨rfl, rfl⟩]
      · rw [dget_dset_ne _ _ _ _ _ (fun h => hb h.symm), if_neg (fun h => hb h.2)]
        rw [show dget (dget R a []) b 0 = cap R a b from rfl]
        ring
    · rw [if_neg ha, if_neg (fun h => ha h.1)]
      ring
  intro a b
  show cap (dset (dset R u (dset (dget R u []) x (cap R u x - aug))) x
      (dset (dget (dset R u (dset (dget R u []) x (cap R u x - aug))) x [])
        u (cap (dset R u (dset (dget R u []) x (cap R u x - aug))) x u + aug))) a b = _
  rw [cap_dset_row]
  have hrowx : dget (dset R u (dset (dget R u []) x (cap R u x - aug))) x [] =
      dget R x [] := dget_dset_row_ne R u _ x (fun h => hne h.symm)
  have hcxu : cap (dset R u (dset (dget R u []) x (cap R u x - aug))) x u =
      cap R x u := by
    rw [hR1cap x u, if_neg (fun h => hne h.1.symm)]
    ring
  by_cases hax : a = x
  · subst hax
    rw [if_pos rfl, hrowx, hcxu]
    by_cases hbu : b = u
    · subst hbu
      rw [dget_dset_self, if_neg (fun h => hne h.1.symm), if_pos ⟨rfl, rfl⟩]
      ring
    · rw [dget_dset_ne _ _ _ _ _ (fun h => hbu h.symm)]
      rw [show dget (dget R a []) b 0 = cap R a b from rfl]
      rw [if_neg (fun h => hne h.1.symm), if_neg (fun h => hbu h.2)]
      ring
  · rw [if_neg hax, hR1cap a b,
      if_neg (show ¬(a = x ∧ b = u) from fun h => hax h.1)]
    ring

/-- pushEdge changes no entry domain when both directions are present. -/
theorem pushEdge_hasEdge {R : Graph} {u x : String} (hux : hasEdge R u x)
    (hxu : hasEdge R x u) (hne : u ≠ x) (aug : Int) :
    ∀ a b, hasEdge (pushEdge R u x aug) a b ↔ hasEdge R a b := by
  intro a b
  show hasEdge (dset (dset R u (dset (dget R u []) x (cap R u x - aug))) x
      (dset (dget (dset R u (dset (dget R u []) x (cap R u x - aug))) x [])
        u (cap (dset R u (dset (dget R u []) x (cap R u x - aug))) x u + aug))) a b ↔ _
  rw [hasEdge_dset_row]
  have hrowx : dget (dset R u (dset (dget R u []) x (cap R u x - aug))) x [] =
      dget R x [] := dget_dset_row_ne R u _ x (fun h => hne h.symm)
  by_cases hax : a = x
  · subst hax
    rw [if_pos rfl, hrowx, dkeys_dset, if_pos (hasEdge_mem_row hxu)]
    constructor
    · intro h
      exact mem_row_hasEdge h
    · intro h
      exact hasEdge_mem_row h
  · rw [if_neg hax, hasEdge_dset_row]
    by_cases hau : a = u
    · subst hau
      rw [if_pos rfl, dkeys_dset, if_pos (hasEdge_mem_row hux)]
      constructor
      · intro h
        exact mem_row_hasEdge h
      · intro h
        exact hasEdge_mem_row h
    · rw [if_neg hau]

theorem pushEdge_keys {R : Graph} {u x : String} (hu : u ∈ dkeys R)
    (hx : x ∈ dkeys R) (aug : Int) :
    dkeys (pushEdge R u x aug) = dkeys R := by
  have h1 : dkeys (dset R u (dset (dget R u []) x (cap R u x - aug))) = dkeys R := by
    rw [dkeys_dset, if_pos hu]
  show dkeys (dset (dset R u (dset (dget R u []) x (cap R u x - aug))) x
      (dset (dget (dset R u (dset (dget R u []) x (cap R u x - aug))) x [])
        u (cap (dset R u (dset (dget R u []) x (cap R u x - aug))) x u + aug))) = dkeys R
  rw [dkeys_dset, h1, if_pos hx]

theorem pushEdge_rows_nodup {R : Graph} {u x : String}
    (hrn : ∀ p ∈ R, (dkeys p.2).Nodup) (aug : Int) :
    ∀ p ∈ pushEdge R u x aug, (dkeys p.2).Nodup := by
  have hrn1 : ∀ p ∈ dset R u (dset (dget R u []) x (cap R u x - aug)),
      (dkeys p.2).Nodup := by
    intro p hp
    rcases mem_dset hp with h1 | h1
    · rw [h1]
      exact dkeys_nodup_dset _ _ (rowNodup_of_rows hrn u)
    · exact hrn p h1
  intro p hp
  rcases mem_dset hp with h1 | h1
  · rw [h1]
    exact dkeys_nodup_dset _ _ (rowNodup_of_rows hrn1 x)
  · exact hrn1 p h1

theorem pathEdges_mem : ∀ {l : List String} {e : String × String},
    e ∈ pathEdges l → e.1 ∈ l ∧ e.2 ∈ l := by
  intro l
  induction l with
  | nil => intro e he; simp [pathEdges] at he
  | cons x tail ih =>
    cases tail with
    | nil => intro e he; simp [pathEdges] at he
    | cons u rest =>
      intro e he
      rw [show pathEdges (x :: u :: rest) = (u, x) :: pathEdges (u :: rest) from rfl] at he
      rcases List.mem_cons.1 he with h1 | h1
      · rw [h1]
        exact ⟨List.mem_cons_of_mem _ (List.mem_cons_self _ _), List.mem_cons_self _ _⟩
      · obtain ⟨ha, hb⟩ := ih h1
        exact ⟨List.mem_cons_of_mem _ ha, List.mem_cons_of_mem _ hb⟩

theorem updEdge_eq (R : Graph) (u x : String) (delta : Int) :
    updEdge R u x delta =
      match dfind2 R u x with
      | none => .error .keyError
      | some c => .ok (dset R u (dset (dget R u []) x (c + delta))) := by
  unfold updEdge dfind2
  cases hf : dfind? R u with
  | none => rfl
  | some d =>
    show (match dfind? d x with
        | none => Except.error Err.keyError
        | some c => Except.ok (dset R u (dset d x (c + delta)))) =
      (match dfind? d x with
        | none => Except.error Err.keyError
        | some c => Except.ok (dset R u (dset (dget R u []) x (c + delta))))
    have h1 : dget R u [] = d := by
      rw [dget_eq, hf]
      rfl
    rw [h1]

theorem updEdge_ok {R : Graph} {u x : String} (h : hasEdge R u x) (delta : Int) :
    updEdge R u x delta =
      .ok (dset R u (dset (dget R u []) x (cap R u x + delta))) := by
  obtain ⟨c, hc⟩ := (hasEdge_iff_dfind2 R u x).1 h
  rw [updEdge_eq, hc, cap_of_dfind2 hc]

theorem walkPath_succ (parent : SDict (Option String)) (n : Nat) (v : String) :
    walkPath parent (n + 1) v =
      match dfind? parent v with
      | none => .error .keyError
      | some none => .ok [v]
      | some (some p) =>
        match walkPath parent n p with
        | .error e => .error e
        | .ok l => .ok (v :: l) := rfl

theorem walkPath_succ2 {parent : SDict (Option String)} {v u : String} (n : Nat)
    (hpo : dfind? parent v = some (some u)) :
    walkPath parent (n + 1) v =
      match walkPath parent n u with
      | .error e => .error e
      | .ok l => .ok (v :: l) := by
  rw [walkPath_succ, hpo]

theorem walkPath_head {parent : SDict (Option String)} :
    ∀ {fuel : Nat} {v : String} {p : List String},
      walkPath parent fuel v = .ok p → p.head? = some v := by
  intro fuel
  cases fuel with
  | zero => intro v p h; exact Except.noConfusion h
  | succ n =>
    intro v p h
    cases hpo : dfind? parent v with
    | none =>
      simp only [walkPath_succ, hpo] at h
      exact Except.noConfusion h
    | some po =>
      cases po with
      | none =>
        simp only [walkPath_succ, hpo] at h
        rw [← Except.ok.inj h]
        rfl
      | some u =>
        rw [walkPath_succ2 n hpo] at h
        revert h
        cases hw : walkPath parent n u with
        | error e => intro h; exact Except.noConfusion h
        | ok l =>
          intro h
          rw [← Except.ok.inj h]
          rfl

theorem augmentAlong_succ (parent : SDict (Option String)) (aug : Int) (n : Nat)
    (R : Graph) (v : String) :
    augmentAlong parent aug (n + 1) R v =
      match dfind? parent v with
      | none => .error .keyError
      | some none => .ok R
      | some (some u) =>
        match updEdge R u v (-aug) with
        | .error e => .error e
        | .ok r1 =>
          match updEdge r1 v u aug with
          | .error e => .error e
          | .ok r2 => augmentAlong parent aug n r2 u := rfl

theorem augmentAlong_succ2 (parent : SDict (Option String)) (aug : Int) (n : Nat)
    (R : Graph) (v u : String) (hpo : dfind? parent v = some (some u)) :
    augmentAlong parent aug (n + 1) R v =
      match updEdge R u v (-aug) with
      | .error e => .error e
      | .ok r1 =>
        match updEdge r1 v u aug with
        | .error e => .error e
        | .ok r2 => augmentAlong parent aug n r2 u := by
  rw [augmentAlong_succ, hpo]

/-- The augmentation walk agrees with the pure edge-update fold along the
path extracted from the parent map. -/
theorem augmentAlong_eq {parent : SDict (Option String)} {aug : Int} :
    ∀ (fuel : Nat) (v : String) (p : List String) (R : Graph),
      walkPath parent fuel v = .ok p →
      (∀ e ∈ pathEdges p, hasEdge R e.1 e.2 ∧ hasEdge R e.2 e.1 ∧ e.1 ≠ e.2) →
      augmentAlong parent aug fuel R v = .ok (updRev aug p R) := by
  intro fuel
  induction fuel with
  | zero => intro v p R h _; exact Except.noConfusion h
  | succ n ih =>
    intro v p R h hpres
    cases hpo : dfind? parent v with
    | none =>
      simp only [walkPath_succ, hpo] at h
      exact Except.noConfusion h
    | some po =>
      cases po with
      | none =>
        simp only [walkPath_succ, hpo] at h
        rw [← Except.ok.inj h]
        rw [augmentAlong_succ, hpo]
        rfl
      | some u =>
        rw [walkPath_succ2 n hpo] at h
        revert h
        cases hw : walkPath parent n u with
        | error e => intro h; exact Except.noConfusion h
        | ok l =>
          intro h
          have hp : v :: l = p := Except.ok.inj h
          subst hp
          have hhead : l.head? = some u := walkPath_head hw
          cases l with
          | nil => exact absurd hhead (by simp)
          | cons u2 rest =>
            have hu2 : u = u2 := by
              have hx : u2 = u := by simpa using hhead
              exact hx.symm
            subst hu2
            have hedge := hpres (u, v) (by
              rw [show pathEdges (v :: u :: rest) = (u, v) :: pathEdges (u :: rest)
                from rfl]
              exact List.mem_cons_self _ _)
            have hR1 : updEdge R u v (-aug) =
                .ok (dset R u (dset (dget R u []) v (cap R u v - aug))) := by
              rw [updEdge_ok hedge.1 (-aug), sub_eq_add_neg]
            have hEv : hasEdge (dset R u (dset (dget R u []) v (cap R u v - aug))) v u := by
              rw [hasEdge_dset_row]
              rw [if_neg (fun hvu => hedge.2.2 hvu.symm)]
              exact hedge.2.1
            have hR2 : updEdge (dset R u (dset (dget R u []) v (cap R u v - aug))) v u aug =
                .ok (pushEdge R u v aug) := updEdge_ok hEv aug
            rw [augmentAlong_succ2 parent aug n R v u hpo]
            simp only [hR1, hR2]
            have hpres2 : ∀ e ∈ pathEdges (u :: rest),
                hasEdge (pushEdge R u v aug) e.1 e.2 ∧
                hasEdge (pushEdge R u v aug) e.2 e.1 ∧ e.1 ≠ e.2 := by
              intro e he
              have horig := hpres e (by
                rw [show pathEdges (v :: u :: rest) = (u, v) :: pathEdges (u :: rest)
                  from rfl]
                exact List.mem_cons_of_mem _ he)
              rw [pushEdge_hasEdge hedge.1 hedge.2.1 hedge.2.2,
                pushEdge_hasEdge hedge.1 hedge.2.1 hedge.2.2]
              exact horig
            exact ih u (u :: rest) (pushEdge R u v aug) hw hpres2

/-! ### Flow-style invariants of the residual dictionary -/

/-- The node universe: the outer keys of the capacitated graph (under
well-formedness every edge endpoint appears there). -/
def nodeSet (g : Graph) : Finset String := (dkeys g).toFinset

/-- Net flow readable from a residual state: original minus residual. -/
def netF (g R : Graph) (a b : String) : Int := cap g a b - cap R a b

/-- Node excess: total net flow leaving n. -/
def excess (g R : Graph) (n : String) : Int := ∑ v ∈ nodeSet g, netF g R n v

theorem excess_pushEdge {g R : Graph} {u x : String} (hne : u ≠ x)
    (hu : u ∈ nodeSet g) (hx : x ∈ nodeSet g) (aug : Int) :
    ∀ n, excess g (pushEdge R u x aug) n =
      excess g R n + (if n = u then aug else 0) - (if n = x then aug else 0) := by
  intro n
  unfold excess
  have hterm : ∀ v ∈ nodeSet g, netF g (pushEdge R u x aug) n v =
      netF g R n v + (if n = u ∧ v = x then aug else 0)
        - (if n = x ∧ v = u then aug else 0) := by
    intro v _
    unfold netF
    rw [pushEdge_cap hne aug n v]
    ring
  rw [Finset.sum_congr rfl hterm, Finset.sum_sub_distrib, Finset.sum_add_distrib]
  have hs1 : (∑ v ∈ nodeSet g, if n = u ∧ v = x then aug else 0) =
      if n = u then aug else 0 := by
    by_cases hn : n = u
    · simp only [hn, true_and]
      rw [Finset.sum_ite_eq' (nodeSet g) x (fun _ => aug), if_pos hx]
      simp
    · simp [hn]
  have hs2 : (∑ v ∈ nodeSet g, if n = x ∧ v = u then aug else 0) =
      if n = x then aug else 0 := by
    by_cases hn : n = x
    · simp only [hn, true_and]
      rw [Finset.sum_ite_eq' (nodeSet g) u (fun _ => aug), if_pos hu]
      simp
    · simp [hn]
  rw [hs1, hs2]

/-- Structural residual invariants maintained by every augmentation:
key sets, entry domain (= adjacency), non-negativity and the conservation of
paired capacities. -/
structure ResStruct (g : Graph) (R : Graph) : Prop where
  keys_eq : dkeys R = dkeys g
  rows_nodup : ∀ p ∈ R, (dkeys p.2).Nodup
  edge_iff : ∀ a b, hasEdge R a b ↔ adj g a b
  nonneg : ∀ a b, 0 ≤ cap R a b
  sum_eq : ∀ a b, cap R a b + cap R b a = cap g a b + cap g b a

theorem ResStruct_pushEdge {g R : Graph} (hS : ResStruct g R) {u x : String}
    {aug : Int} (hux : hasEdge R u x) (hxu : hasEdge R x u) (hne : u ≠ x)
    (hcap : aug ≤ cap R u x) (hpos : 0 < aug) :
    ResStruct g (pushEdge R u x aug) where
  keys_eq := by
    rw [pushEdge_keys (hasEdge_src_mem hux) (hasEdge_src_mem hxu) aug]
    exact hS.keys_eq
  rows_nodup := pushEdge_rows_nodup hS.rows_nodup aug
  edge_iff := fun a b => (pushEdge_hasEdge hux hxu hne aug a b).trans (hS.edge_iff a b)
  nonneg := by
    intro a b
    rw [pushEdge_cap hne aug a b]
    have h0 := hS.nonneg a b
    by_cases h1 : a = u ∧ b = x <;> by_cases h2 : a = x ∧ b = u
    · obtain ⟨ha, hb⟩ := h1
      exact absurd (ha.symm.trans h2.1) hne
    · obtain ⟨ha, hb⟩ := h1
      subst ha
      subst hb
      rw [if_pos ⟨rfl, rfl⟩, if_neg h2]
      linarith
    · obtain ⟨ha, hb⟩ := h2
      subst ha
      subst hb
      rw [if_neg h1, if_pos ⟨rfl, rfl⟩]
      linarith
    · rw [if_neg h1, if_neg h2]
      linarith
  sum_eq := by
    intro a b
    rw [pushEdge_cap hne aug a b, pushEdge_cap hne aug b a]
    simp only [show (b = u ∧ a = x) = (a = x ∧ b = u) from propext and_comm,
      show (b = x ∧ a = u) = (a = u ∧ b = x) from propext and_comm]
    have hsum := hS.sum_eq a b
    linarith [hsum]

/-- The path fold preserves the structural invariants and moves exactly one
bottleneck of excess from the path's last node (the BFS root) to its head
(the sink). -/
theorem updRev_spec {g : Graph} {aug : Int} (hpos : 0 < aug) :
    ∀ (p : List String) (R : Graph), ResStruct g R →
      p.Nodup →
      (∀ e ∈ pathEdges p, hasEdge R e.1 e.2 ∧ aug ≤ cap R e.1 e.2) →
      (∀ n ∈ p, n ∈ nodeSet g) →
      ResStruct g (updRev aug p R) ∧
      (∀ n, excess g (updRev aug p R) n =
        excess g R n + (if p.getLast? = some n then aug else 0)
          - (if p.head? = some n then aug else 0)) := by
  intro p
  induction p with
  | nil =>
    intro R hS _ _ _
    refine ⟨hS, ?_⟩
    intro n
    show excess g R n = _
    simp
  | cons x tail ih =>
    cases tail with
    | nil =>
      intro R hS _ _ _
      refine ⟨hS, ?_⟩
      intro n
      show excess g R n = _
      simp only [List.getLast?_singleton, List.head?_cons]
      ring
    | cons u rest =>
      intro R hS hnd hedges hmem
      have hmem0 : (u, x) ∈ pathEdges (x :: u :: rest) := by
        rw [show pathEdges (x :: u :: rest) = (u, x) :: pathEdges (u :: rest) from rfl]
        exact List.mem_cons_self _ _
      have he0 := hedges (u, x) hmem0
      have hxu : hasEdge R x u :=
        (hS.edge_iff x u).2 (((hS.edge_iff u x).1 he0.1).symm)
      have hxnot : x ∉ u :: rest := (List.nodup_cons.1 hnd).1
      have hne : u ≠ x := by
        intro he
        exact hxnot (he ▸ List.mem_cons_self _ _)
      have hu : u ∈ nodeSet g :=
        hmem u (List.mem_cons_of_mem _ (List.mem_cons_self _ _))
      have hx : x ∈ nodeSet g := hmem x (List.mem_cons_self _ _)
      have hS' : ResStruct g (pushEdge R u x aug) :=
        ResStruct_pushEdge hS he0.1 hxu hne he0.2 hpos
      have hedges' : ∀ e ∈ pathEdges (u :: rest),
          hasEdge (pushEdge R u x aug) e.1 e.2 ∧
            aug ≤ cap (pushEdge R u x aug) e.1 e.2 := by
        intro e he
        have ho := hedges e (by
          rw [show pathEdges (x :: u :: rest) = (u, x) :: pathEdges (u :: rest)
            from rfl]
          exact List.mem_cons_of_mem _ he)
        have hmems := pathEdges_mem he
        have hne1 : ¬(e.1 = u ∧ e.2 = x) := fun hh => hxnot (hh.2 ▸ hmems.2)
        have hne2 : ¬(e.1 = x ∧ e.2 = u) := fun hh => hxnot (hh.1 ▸ hmems.1)
        constructor
        · rw [pushEdge_hasEdge he0.1 hxu hne aug]
          exact ho.1
        · rw [pushEdge_cap hne aug e.1 e.2, if_neg hne1, if_neg hne2]
          linarith [ho.2]
      have hrec := ih (pushEdge R u x aug) hS' (List.nodup_cons.1 hnd).2 hedges'
        (fun n hn => hmem n (List.mem_cons_of_mem _ hn))
      refine ⟨hrec.1, ?_⟩
      intro n
      show excess g (updRev aug (u :: rest) (pushEdge R u x aug)) n = _
      rw [hrec.2 n, excess_pushEdge hne hu hx aug n,
        show (x :: u :: rest).getLast? = (u :: rest).getLast?
          from List.getLast?_cons_cons,
        show (u :: rest).head? = some u from rfl,
        show (x :: u :: rest).head? = some x from rfl]
      have hsome : ∀ (a : String),
          (if some a = some n then aug else 0) = (if n = a then aug else 0) := by
        intro a
        by_cases h : n = a
        · rw [if_pos h, if_pos (by rw [h])]
        · rw [if_neg h, if_neg (by
            intro hh
            exact h (Option.some.inj hh).symm)]
      rw [hsome u, hsome x]
      ring

/-! ### The augmenting loop -/

theorem innerKeys_mem {R : Graph} {v : String} (h : v ∈ innerKeys R) :
    ∃ u d, (u, d) ∈ R ∧ v ∈ dkeys d := by
  induction R with
  | nil => simp [innerKeys] at h
  | cons p rest ih =>
    obtain ⟨k, e⟩ := p
    rw [show innerKeys ((k, e) :: rest) = dkeys e ++ innerKeys rest from rfl] at h
    rcases List.mem_append.1 h with h1 | h1
    · exact ⟨k, e, List.mem_cons_self _ _, h1⟩
    · obtain ⟨u, d, hm, hvd⟩ := ih h1
      exact ⟨u, d, List.mem_cons_of_mem _ hm, hvd⟩

theorem adj_src_mem {g : Graph} (hwf : WFGraph g) {u v : String}
    (h : adj g u v) : u ∈ dkeys g := by
  rcases h with h | h
  · exact hasEdge_src_mem h
  · exact hasEdge_tgt_mem hwf h

theorem adj_tgt_mem {g : Graph} (hwf : WFGraph g) {u v : String}
    (h : adj g u v) : v ∈ dkeys g := by
  rcases h with h | h
  · exact hasEdge_tgt_mem hwf h
  · exact hasEdge_src_mem h

theorem resStruct_innerKeys {g R : Graph} (hwf : WFGraph g) (hS : ResStruct g R) :
    ∀ v ∈ innerKeys R, v ∈ dkeys R := by
  intro v hv
  obtain ⟨u, d, hm, hvd⟩ := innerKeys_mem hv
  have hnd : (dkeys R).Nodup := hS.keys_eq ▸ hwf.1
  have hf : dfind? R u = some d := dfind?_of_mem_nodup hnd hm
  have he : hasEdge R u v := by
    unfold hasEdge
    rw [hf]
    exact hvd
  rw [hS.keys_eq]
  exact adj_tgt_mem hwf ((hS.edge_iff u v).1 he)

theorem pathEdges_ne : ∀ {l : List String}, l.Nodup →
    ∀ e ∈ pathEdges l, e.1 ≠ e.2 := by
  intro l
  induction l with
  | nil => intro _ e he; simp [pathEdges] at he
  | cons x tail ih =>
    cases tail with
    | nil => intro _ e he; simp [pathEdges] at he
    | cons u rest =>
      intro hnd e he
      rw [show pathEdges (x :: u :: rest) = (u, x) :: pathEdges (u :: rest)
        from rfl] at he
      rcases List.mem_cons.1 he with h1 | h1
      · rw [h1]
        intro hux
        have hux2 : u = x := hux
        refine (List.nodup_cons.1 hnd).1 ?_
        rw [← hux2]
        exact List.mem_cons_self u rest
      · exact ih (List.nodup_cons.1 hnd).2 e h1

theorem sum_cap_row {g : Graph} (hwf : WFGraph g) (s : String) :
    (∑ v ∈ nodeSet g, cap g s v) = sumOutCaps g s := by
  set row := dget g s [] with hrow
  have hnd : (dkeys row).Nodup := row_nodup hwf s
  have hsub : (dkeys row).toFinset ⊆ nodeSet g := by
    intro v hv
    rw [List.mem_toFinset] at hv
    unfold nodeSet
    rw [List.mem_toFinset]
    obtain ⟨c, hc⟩ := dfind?_isSome_of_mem hv
    exact (row_entries hwf s (v, c) (mem_of_dfind? hc)).1
  have hzero : ∀ v ∈ nodeSet g, v ∉ (dkeys row).toFinset → cap g s v = 0 := by
    intro v _ hv
    rw [List.mem_toFinset] at hv
    rw [cap_eq, ← hrow, dfind?_eq_none_of_not_mem hv]
    rfl
  rw [← Finset.sum_subset hsub (fun v hvg hvr => hzero v hvg hvr)]
  have hlist : ∑ v ∈ (dkeys row).toFinset, cap g s v =
      ((dkeys row).map (fun v => cap g s v)).sum := by
    rw [List.sum_toFinset _ hnd]
  rw [hlist]
  unfold sumOutCaps
  rw [← hrow]
  unfold dkeys
  rw [List.map_map]
  refine congrArg List.sum (List.map_congr_left ?_)
  intro p hp
  obtain ⟨k, c⟩ := p
  have : dfind? row k = some c := dfind?_of_mem_nodup hnd hp
  show cap g s k = c
  rw [cap_eq, ← hrow, this]
  rfl

theorem excess_le_sumOut {g R : Graph} (hwf : WFGraph g) (hS : ResStruct g R)
    (s : String) : excess g R s ≤ sumOutCaps g s := by
  calc excess g R s ≤ ∑ v ∈ nodeSet g, cap g s v := by
        refine Finset.sum_le_sum ?_
        intro v _
        unfold netF
        linarith [hS.nonneg s v]
    _ = sumOutCaps g s := sum_cap_row hwf s

/-- Full loop invariant of edmonds_karp: structural residual invariants,
the source excess equals the running total, and interior nodes balance. -/
structure ResInv (g : Graph) (s t : String) (R : Graph) (total : Int) : Prop where
  struct : ResStruct g R
  value_eq : excess g R s = total
  conserve : ∀ n ∈ nodeSet g, n ≠ s → n ≠ t → excess g R n = 0

theorem ResInv_init {g : Graph} (hwf : WFGraph g) (s t : String) :
    ResInv g s t (buildResidual g) 0 := by
  obtain ⟨inv, hrev⟩ := buildResidual_inv hwf
  have hcap := buildResidual_cap hwf
  have hstruct : ResStruct g (buildResidual g) :=
    { keys_eq := inv.keys_eq
      rows_nodup := inv.rows_nodup
      edge_iff := buildResidual_hasEdge_iff hwf
      nonneg := fun a b => by
        rw [hcap a b]
        exact cap_nonneg hwf a b
      sum_eq := fun a b => by rw [hcap a b, hcap b a] }
  have hz : ∀ n, excess g (buildResidual g) n = 0 := by
    intro n
    unfold excess
    refine Finset.sum_eq_zero ?_
    intro v _
    unfold netF
    rw [hcap n v]
    ring
  exact ⟨hstruct, hz s, fun n _ _ _ => hz n⟩

theorem ekLoop_zero (s t : String) (R : Graph) (total : Int) :
    ekLoop s t 0 R total = .error .fuelExhausted := rfl

theorem ekLoop_succ (s t : String) (fuel : Nat) (R : Graph) (total : Int) :
    ekLoop s t (fuel + 1) R total =
      match bfsAugment R s t with
      | .error e => .error e
      | .ok none => .ok (total, R)
      | .ok (some pr) =>
        match augmentAlong pr.parent pr.bottleneck pr.parent.length R t with
        | .error e => .error e
        | .ok res2 => ekLoop s t fuel res2 (total + pr.bottleneck) := rfl

theorem ekLoop_succ_none {s t : String} {fuel : Nat} {R : Graph} {total : Int}
    (hb : bfsAugment R s t = .ok none) :
    ekLoop s t (fuel + 1) R total = .ok (total, R) := by
  rw [ekLoop_succ, hb]

theorem ekLoop_succ_some {s t : String} {fuel : Nat} {R : Graph} {total : Int}
    {pr : PathResult} (hb : bfsAugment R s t = .ok (some pr)) :
    ekLoop s t (fuel + 1) R total =
      match augmentAlong pr.parent pr.bottleneck pr.parent.length R t with
      | .error e => .error e
      | .ok res2 => ekLoop s t fuel res2 (total + pr.bottleneck) := by
  rw [ekLoop_succ, hb]

theorem ekLoop_succ_some2 {s t : String} {fuel : Nat} {R R2 : Graph} {total : Int}
    {pr : PathResult} (hb : bfsAugment R s t = .ok (some pr))
    (ha : augmentAlong pr.parent pr.bottleneck pr.parent.length R t = .ok R2) :
    ekLoop s t (fuel + 1) R total = ekLoop s t fuel R2 (total + pr.bottleneck) := by
  rw [ekLoop_succ_some hb, ha]

/-- Master lemma for the augmenting loop: from any invariant state, with
fuel exceeding the remaining capacity budget, the loop finishes without
error and returns an invariant state whose residual admits no further
augmenting path. -/
theorem ekLoop_spec {g : Graph} (hwf : WFGraph g) {s t : String}
    (hs : s ∈ dkeys g) (hts : t ≠ s) :
    ∀ (fuel : Nat) (R : Graph) (total : Int),
      ResInv g s t R total →
      (sumOutCaps g s - total).toNat < fuel →
      ∃ tf Rf, ekLoop s t fuel R total = .ok (tf, Rf) ∧
        ResInv g s t Rf tf ∧ total ≤ tf ∧
        ¬ Relation.ReflTransGen (stepR Rf) s t := by
  intro fuel
  induction fuel with
  | zero =>
    intro R total _ hfuel
    exact absurd hfuel (by omega)
  | succ fuel ih =>
    intro R total inv hfuel
    have hrn := inv.struct.rows_nodup
    have hink := resStruct_innerKeys hwf inv.struct
    have hsR : s ∈ dkeys R := by
      rw [inv.struct.keys_eq]
      exact hs
    have hbfs := bfsAugment_spec hrn hink hsR hts
    revert hbfs
    cases hb : bfsAugment R s t with
    | error e => exact fun h => absurd h (fun x => x)
    | ok o =>
      cases o with
      | none =>
        intro hnr
        exact ⟨total, R, ekLoop_succ_none hb, inv, le_refl total, hnr⟩
      | some pr =>
        rintro ⟨hPWF, htk, p, hwp, hhead, hlast, hnd, hpmem, hpe_ne, hedges, hb1⟩
        have hpnodes : ∀ n ∈ p, n ∈ nodeSet g := by
          intro n hn
          have hk := hpmem n hn
          rcases hPWF.src n hk with h | ⟨w, h1, h2⟩
          · rw [h]
            unfold nodeSet
            rw [List.mem_toFinset]
            exact hs
          · unfold nodeSet
            rw [List.mem_toFinset]
            exact adj_tgt_mem hwf ((inv.struct.edge_iff w n).1 h1)
        have hedges2 : ∀ e ∈ pathEdges p,
            hasEdge R e.1 e.2 ∧ hasEdge R e.2 e.1 ∧ e.1 ≠ e.2 := by
          intro e he
          refine ⟨(hedges e he).1, ?_, pathEdges_ne hnd e he⟩
          exact (inv.struct.edge_iff e.2 e.1).2
            (((inv.struct.edge_iff e.1 e.2).1 (hedges e he).1).symm)
        have haug := @augmentAlong_eq pr.parent pr.bottleneck pr.parent.length t p R
          hwp hedges2
        have hupd := @updRev_spec g pr.bottleneck (by linarith)
          p R inv.struct hnd
          (fun e he => ⟨(hedges e he).1, (hedges e he).2.2⟩) hpnodes
        have hval : excess g (updRev pr.bottleneck p R) s = total + pr.bottleneck := by
          rw [hupd.2 s, inv.value_eq, hlast, hhead]
          rw [if_pos rfl, if_neg (fun hcon => hts (Option.some.inj hcon))]
          ring
        have hcons : ∀ n ∈ nodeSet g, n ≠ s → n ≠ t →
            excess g (updRev pr.bottleneck p R) n = 0 := by
          intro n hn hns hnt
          rw [hupd.2 n, inv.conserve n hn hns hnt, hlast, hhead]
          rw [if_neg (fun hcon => hns (Option.some.inj hcon).symm),
            if_neg (fun hcon => hnt (Option.some.inj hcon).symm)]
          ring
        have hinv2 : ResInv g s t (updRev pr.bottleneck p R) (total + pr.bottleneck) :=
          ⟨hupd.1, hval, hcons⟩
        have hle : total + pr.bottleneck ≤ sumOutCaps g s := by
          rw [← hval]
          exact excess_le_sumOut hwf hupd.1 s
        obtain ⟨tf, Rf, heq, hinvf, hmono, hnr⟩ :=
          ih (updRev pr.bottleneck p R) (total + pr.bottleneck) hinv2 (by omega)
        refine ⟨tf, Rf, ?_, hinvf, by linarith, hnr⟩
        rw [ekLoop_succ_some2 hb haug]
        exact heq

/-! ### The flow matrix -/

theorem dfind?_map_val (h : String → Int → Int) :
    ∀ (d : SDict Int) (k : String),
      dfind? (d.map (fun vc => (vc.1, h vc.1 vc.2))) k = (dfind? d k).map (h k) := by
  intro d
  induction d with
  | nil => intro k; rfl
  | cons vc rest ih =>
    obtain ⟨v, c⟩ := vc
    intro k
    rw [List.map_cons, dfind?_cons, dfind?_cons]
    by_cases hv : v = k
    · subst hv
      rw [if_pos rfl, if_pos rfl]
      rfl
    · rw [if_neg hv, if_neg hv, ih]

theorem dkeys_map_val (h : String → Int → Int) (d : SDict Int) :
    dkeys (d.map (fun vc => (vc.1, h vc.1 vc.2))) = dkeys d := by
  unfold dkeys
  rw [List.map_map]
  rfl

theorem fmRow_ok {res : Graph} {u : String} :
    ∀ (inner : SDict Int), (∀ vc ∈ inner, hasEdge res u vc.1) →
      fmRow res u inner = .ok (inner.map (fun vc =>
        (vc.1, if 0 < vc.2 - cap res u vc.1 then vc.2 - cap res u vc.1 else 0))) := by
  intro inner
  induction inner with
  | nil => intro _; rfl
  | cons vc rest ih =>
    obtain ⟨v, c⟩ := vc
    intro hpres
    have h1 : hasEdge res u v := hpres (v, c) (List.mem_cons_self _ _)
    have h2 := ih (fun wc hwc => hpres wc (List.mem_cons_of_mem _ hwc))
    rw [show fmRow res u ((v, c) :: rest) =
        (match rlookE res u v with
         | .error e => .error e
         | .ok r =>
           match fmRow res u rest with
           | .error e => .error e
           | .ok row => .ok ((v, if 0 < c - r then c - r else 0) :: row)) from rfl]
    rw [rlookE_of_hasEdge h1, h2]
    rfl

/-- Full lookup characterisation of the flow-matrix derivation loop. -/
theorem flowMatrix_ok {res : Graph} :
    ∀ (g : Graph), (dkeys g).Nodup →
      (∀ p ∈ g, ∀ vc ∈ p.2, hasEdge res p.1 vc.1) →
      ∃ fm, flowMatrix res g = .ok fm ∧
        ∀ a, dfind? fm a =
          match dfind? g a with
          | none => none
          | some inner =>
            if inner.isEmpty then none
            else some (inner.map (fun vc =>
              (vc.1, if 0 < vc.2 - cap res a vc.1 then vc.2 - cap res a vc.1 else 0))) := by
  intro g
  induction g with
  | nil =>
    intro _ _
    exact ⟨[], rfl, fun a => rfl⟩
  | cons p rest ih =>
    obtain ⟨u, inner⟩ := p
    intro hnd hpres
    have hnr : (dkeys rest).Nodup := (List.nodup_cons.1 (by simpa using hnd)).2
    have hun : u ∉ dkeys rest := (List.nodup_cons.1 (by simpa using hnd)).1
    obtain ⟨fmr, hfmr, hspec⟩ := ih hnr
      (fun q hq vc hvc => hpres q (List.mem_cons_of_mem _ hq) vc hvc)
    by_cases hemp : inner.isEmpty
    · refine ⟨fmr, ?_, ?_⟩
      · rw [show flowMatrix res ((u, inner) :: rest) =
            (if inner.isEmpty then flowMatrix res rest
             else
               match fmRow res u inner with
               | .error e => .error e
               | .ok row =>
                 match flowMatrix res rest with
                 | .error e => .error e
                 | .ok fm => .ok ((u, row) :: fm)) from rfl, if_pos hemp]
        exact hfmr
      · intro a
        by_cases hau : u = a
        · subst hau
          have h1 : dfind? ((u, inner) :: rest) u = some inner := by
            rw [dfind?_cons, if_pos rfl]
          rw [h1, hspec u, dfind?_eq_none_of_not_mem hun]
          simp [hemp]
        · have h1 : dfind? ((u, inner) :: rest) a = dfind? rest a := by
            rw [dfind?_cons, if_neg hau]
          rw [h1, hspec a]
    · have hrowpres : ∀ vc ∈ inner, hasEdge res u vc.1 :=
        fun vc hvc => hpres (u, inner) (List.mem_cons_self _ _) vc hvc
      refine ⟨(u, inner.map (fun vc =>
          (vc.1, if 0 < vc.2 - cap res u vc.1 then vc.2 - cap res u vc.1 else 0))) :: fmr,
        ?_, ?_⟩
      · rw [show flowMatrix res ((u, inner) :: rest) =
            (if inner.isEmpty then flowMatrix res rest
             else
               match fmRow res u inner with
               | .error e => .error e
               | .ok row =>
                 match flowMatrix res rest with
                 | .error e => .error e
                 | .ok fm => .ok ((u, row) :: fm)) from rfl, if_neg hemp,
          fmRow_ok inner hrowpres, hfmr]
      · intro a
        by_cases hau : u = a
        · subst hau
          have h1 : dfind? ((u, inner) :: rest) u = some inner := by
            rw [dfind?_cons, if_pos rfl]
          have h2 : dfind? ((u, inner.map (fun vc =>
              (vc.1, if 0 < vc.2 - cap res u vc.1 then vc.2 - cap res u vc.1 else 0))) :: fmr) u
              = some (inner.map (fun vc =>
              (vc.1, if 0 < vc.2 - cap res u vc.1 then vc.2 - cap res u vc.1 else 0))) := by
            rw [dfind?_cons, if_pos rfl]
          rw [h1, h2]
          simp [hemp]
        · have h1 : dfind? ((u, inner) :: rest) a = dfind? rest a := by
            rw [dfind?_cons, if_neg hau]
          have h2 : dfind? ((u, inner.map (fun vc =>
              (vc.1, if 0 < vc.2 - cap res u vc.1 then vc.2 - cap res u vc.1 else 0))) :: fmr) a
              = dfind? fmr a := by
            rw [dfind?_cons, if_neg hau]
          rw [h1, h2, hspec a]

/-- edmonds_karp on a well-formed graph with the source present and sink
distinct from source: the loop terminates within its fuel, the final
residual satisfies the invariant, the sink is unreachable in the final
residual, and the returned flow matrix is exactly the clamped
original-minus-residual table over the original adjacency structure. -/
theorem edmondsKarp_spec {g : Graph} (hwf : WFGraph g) {s t : String}
    (hs : s ∈ dkeys g) (hts : t ≠ s) :
    ∃ tf fm Rf, edmondsKarp g s t = .ok (tf, fm, Rf) ∧
      ResInv g s t Rf tf ∧ 0 ≤ tf ∧
      ¬ Relation.ReflTransGen (stepR Rf) s t ∧
      (∀ a, dfind? fm a =
        match dfind? g a with
        | none => none
        | some inner =>
          if inner.isEmpty then none
          else some (inner.map (fun vc =>
            (vc.1, if 0 < vc.2 - cap Rf a vc.1 then vc.2 - cap Rf a vc.1 else 0)))) := by
  have hnd : (dkeys g).Nodup := hwf.1
  have hinv0 := ResInv_init hwf s t
  have hfuel : (sumOutCaps g s - 0).toNat < ekFuel g s := by
    unfold ekFuel
    omega
  obtain ⟨tf, Rf, hek, hinv, hpos, hreach⟩ :=
    ekLoop_spec hwf hs hts (ekFuel g s) (buildResidual g) 0 hinv0 hfuel
  have hpres : ∀ p ∈ g, ∀ vc ∈ p.2, hasEdge Rf p.1 vc.1 := by
    intro p hp vc hvc
    refine (hinv.struct.edge_iff p.1 vc.1).2 (Or.inl ?_)
    have hfind : dfind? g p.1 = some p.2 := dfind?_of_mem_nodup hnd hp
    simp only [hasEdge, hfind]
    exact List.mem_map.2 ⟨vc, hvc, rfl⟩
  obtain ⟨fm, hfm, hlook⟩ := @flowMatrix_ok Rf g hnd hpres
  refine ⟨tf, fm, Rf, ?_, hinv, hpos, hreach, hlook⟩
  rw [show edmondsKarp g s t =
      (match ekLoop s t (ekFuel g s) (buildResidual g) 0 with
       | .error e => .error e
       | .ok (total, resF) =>
         match flowMatrix resF g with
         | .error e => .error e
         | .ok fm => .ok (total, fm, resF)) from rfl]
  simp only [hek, hfm]

/-! ### Max-flow / min-cut vocabulary -/

/-- A feasible s-t flow on the capacities of g: skew-symmetric, bounded by
capacity, and conserved at every node other than s and t. -/
def Feasible (g : Graph) (s t : String) (f : String → String → Int) : Prop :=
  (∀ a b, f a b = - f b a) ∧
  (∀ a b, f a b ≤ cap g a b) ∧
  (∀ n ∈ nodeSet g, n ≠ s → n ≠ t → (∑ v ∈ nodeSet g, f n v) = 0)

/-- The value of a flow: net flow out of the source. -/
def flowValue (g : Graph) (s : String) (f : String → String → Int) : Int :=
  ∑ v ∈ nodeSet g, f s v

/-- Capacity of a cut given by a boolean predicate: sum of capacities of
forward edges crossing from the true side to the false side. -/
def cutCap (g : Graph) (p : String → Bool) : Int :=
  ∑ a ∈ nodeSet g, ∑ b ∈ nodeSet g,
    if p a = true ∧ p b = false then cap g a b else 0

/-- V is the maximum flow value from s to t in g. -/
def IsMaxFlowValue (g : Graph) (s t : String) (V : Int) : Prop :=
  (∃ f, Feasible g s t f ∧ flowValue g s f = V) ∧
  ∀ f, Feasible g s t f → flowValue g s f ≤ V

/-- V is the minimum s-t cut capacity in g. -/
def IsMinCutValue (g : Graph) (s t : String) (V : Int) : Prop :=
  (∃ p : String → Bool, p s = true ∧ p t = false ∧ cutCap g p = V) ∧
  ∀ p : String → Bool, p s = true → p t = false → V ≤ cutCap g p

theorem sum_sum_skew {S : Finset String} {f : String → String → Int}
    (hf : ∀ a b, f a b = - f b a) :
    (∑ a ∈ S, ∑ b ∈ S, f a b) = 0 := by
  have h1 : (∑ a ∈ S, ∑ b ∈ S, f a b) = ∑ b ∈ S, ∑ a ∈ S, f a b :=
    Finset.sum_comm
  have h2 : (∑ b ∈ S, ∑ a ∈ S, f a b) = ∑ b ∈ S, ∑ a ∈ S, -(f b a) := by
    refine Finset.sum_congr rfl fun b _ => Finset.sum_congr rfl fun a _ => ?_
    rw [hf a b]
  have h3 : (∑ b ∈ S, ∑ a ∈ S, -(f b a)) = - ∑ b ∈ S, ∑ a ∈ S, f b a := by
    simp
  linarith [h1, h2, h3]

/-- The value of a feasible flow equals the total flow across any s-t cut. -/
theorem flow_cross_eq {g : Graph} {s t : String} {f : String → String → Int}
    (hf : Feasible g s t f) (hs : s ∈ nodeSet g)
    {p : String → Bool} (hps : p s = true) (hpt : p t = false) :
    flowValue g s f =
      ∑ a ∈ (nodeSet g).filter (fun a => p a = true),
        ∑ b ∈ (nodeSet g).filter (fun b => p b = false), f a b := by
  obtain ⟨hskew, hcap, hcons⟩ := hf
  set S := (nodeSet g).filter (fun a => p a = true) with hS
  set T := (nodeSet g).filter (fun b => p b = false) with hT
  have hsS : s ∈ S := Finset.mem_filter.2 ⟨hs, hps⟩
  have h1 : (∑ a ∈ S, ∑ v ∈ nodeSet g, f a v) = flowValue g s f := by
    have hz : ∀ a ∈ S, a ≠ s → (∑ v ∈ nodeSet g, f a v) = 0 := by
      intro a haS hane
      have haN : a ∈ nodeSet g := (Finset.mem_filter.1 haS).1
      have hat : a ≠ t := by
        intro h
        have hpa := (Finset.mem_filter.1 haS).2
        rw [h, hpt] at hpa
        exact Bool.noConfusion hpa
      exact hcons a haN hane hat
    rw [Finset.sum_eq_single_of_mem s hsS hz]
    rfl
  have h2 : ∀ a, (∑ v ∈ nodeSet g, f a v) = (∑ b ∈ S, f a b) + (∑ b ∈ T, f a b) := by
    intro a
    rw [hS, hT, ← Finset.sum_filter_add_sum_filter_not (nodeSet g)
      (fun b => p b = true) (f a)]
    congr 1
    refine Finset.sum_congr (Finset.filter_congr fun b _ => ?_) fun _ _ => rfl
    simp [Bool.not_eq_true]
  have h3 : (∑ a ∈ S, ∑ b ∈ S, f a b) = 0 := sum_sum_skew hskew
  calc flowValue g s f = ∑ a ∈ S, ∑ v ∈ nodeSet g, f a v := h1.symm
    _ = ∑ a ∈ S, ((∑ b ∈ S, f a b) + (∑ b ∈ T, f a b)) :=
        Finset.sum_congr rfl fun a _ => h2 a
    _ = (∑ a ∈ S, ∑ b ∈ S, f a b) + (∑ a ∈ S, ∑ b ∈ T, f a b) :=
        Finset.sum_add_distrib
    _ = ∑ a ∈ S, ∑ b ∈ T, f a b := by rw [h3]; ring

theorem cutCap_eq_cross (g : Graph) (p : String → Bool) :
    cutCap g p =
      ∑ a ∈ (nodeSet g).filter (fun a => p a = true),
        ∑ b ∈ (nodeSet g).filter (fun b => p b = false), cap g a b := by
  symm
  rw [Finset.sum_filter]
  unfold cutCap
  refine Finset.sum_congr rfl fun a _ => ?_
  rw [Finset.sum_filter]
  by_cases hpa : p a = true <;> simp [hpa]

/-- Weak duality: any feasible flow value is at most any s-t cut capacity. -/
theorem weak_duality {g : Graph} {s t : String} {f : String → String → Int}
    (hf : Feasible g s t f) (hs : s ∈ nodeSet g)
    {p : String → Bool} (hps : p s = true) (hpt : p t = false) :
    flowValue g s f ≤ cutCap g p := by
  rw [flow_cross_eq hf hs hps hpt, cutCap_eq_cross]
  exact Finset.sum_le_sum fun a _ => Finset.sum_le_sum fun b _ => hf.2.1 a b

theorem hasEdge_of_cap_pos {R : Graph} {a b : String} (h : 0 < cap R a b) :
    hasEdge R a b := by
  rw [hasEdge_iff_dfind2 R a b]
  rw [cap_eq] at h
  unfold dfind2
  cases hf : dfind? R a with
  | none =>
    exfalso
    unfold dget at h
    rw [hf] at h
    simp [dfind?] at h
  | some d =>
    have hd : dget R a [] = d := by unfold dget; rw [hf]; rfl
    rw [hd] at h
    cases hg : dfind? d b with
    | none =>
      exfalso
      rw [hg] at h
      simp at h
    | some x => exact ⟨x, by simp [hg]⟩

/-- The net flow of a residual state satisfying the structural invariant is
a feasible flow (conservation supplied separately). -/
theorem netF_feasible {g R : Graph} {s t : String} {total : Int}
    (h : ResInv g s t R total) : Feasible g s t (netF g R) := by
  refine ⟨?_, ?_, ?_⟩
  · intro a b
    have := h.struct.sum_eq a b
    unfold netF
    linarith
  · intro a b
    have := h.struct.nonneg a b
    unfold netF
    linarith
  · intro n hn hns hnt
    exact h.conserve n hn hns hnt

/-- The set of nodes reachable in the final residual graph induces a cut
whose capacity equals the accumulated total flow. -/
theorem reach_cut_eq {g : Graph} {s t : String} {R : Graph} {total : Int}
    (hinv : ResInv g s t R total) (hs : s ∈ nodeSet g)
    (hreach : ¬ Relation.ReflTransGen (stepR R) s t) :
    ∃ p : String → Bool, p s = true ∧ p t = false ∧ cutCap g p = total := by
  classical
  have hfeas : Feasible g s t (netF g R) := netF_feasible hinv
  refine ⟨fun v => decide (Relation.ReflTransGen (stepR R) s v), ?_, ?_, ?_⟩
  · exact decide_eq_true Relation.ReflTransGen.refl
  · exact decide_eq_false hreach
  · have hps : (fun v => decide (Relation.ReflTransGen (stepR R) s v)) s = true :=
      decide_eq_true Relation.ReflTransGen.refl
    have hpt : (fun v => decide (Relation.ReflTransGen (stepR R) s v)) t = false :=
      decide_eq_false hreach
    have hval : flowValue g s (netF g R) = total := hinv.value_eq
    rw [cutCap_eq_cross, ← hval, flow_cross_eq
      (p := fun v => decide (Relation.ReflTransGen (stepR R) s v)) hfeas hs hps hpt]
    refine (Finset.sum_congr rfl fun a haS => Finset.sum_congr rfl fun b hbT => ?_).symm
    have hra : Relation.ReflTransGen (stepR R) s a :=
      of_decide_eq_true (Finset.mem_filter.1 haS).2
    have hrb : ¬ Relation.ReflTransGen (stepR R) s b := by
      have hb := (Finset.mem_filter.1 hbT).2
      simp only [decide_eq_false_iff_not] at hb
      exact hb
    have hcap0 : cap R a b = 0 := by
      rcases lt_or_eq_of_le (hinv.struct.nonneg a b) with hlt | heq
      · exact absurd (hra.tail ⟨hasEdge_of_cap_pos hlt, hlt⟩) hrb
      · exact heq.symm
    unfold netF
    rw [hcap0]
    ring

/-- C1: on every well-formed capacitated graph containing both endpoints
with s ≠ t, edmonds_karp returns a total flow equal to the maximum flow
value from s to t, which also equals the minimum s-t cut capacity. -/
theorem C1_maxflow_mincut {g : Graph} (hwf : WFGraph g) {s t : String}
    (hs : s ∈ dkeys g) (ht : t ∈ dkeys g) (hst : s ≠ t) :
    ∃ tf fm Rf, edmondsKarp g s t = .ok (tf, fm, Rf) ∧
      IsMaxFlowValue g s t tf ∧ IsMinCutValue g s t tf := by
  obtain ⟨tf, fm, Rf, hek, hinv, hpos, hreach, hlook⟩ :=
    edmondsKarp_spec hwf hs (Ne.symm hst)
  have hsN : s ∈ nodeSet g := List.mem_toFinset.2 hs
  have hfeas : Feasible g s t (netF g Rf) := netF_feasible hinv
  have hval : flowValue g s (netF g Rf) = tf := hinv.value_eq
  obtain ⟨p, hp1, hp2, hp3⟩ := reach_cut_eq hinv hsN hreach
  refine ⟨tf, fm, Rf, hek, ⟨⟨netF g Rf, hfeas, hval⟩, ?_⟩, ⟨⟨p, hp1, hp2, hp3⟩, ?_⟩⟩
  · intro f hf
    calc flowValue g s f ≤ cutCap g p := weak_duality hf hsN hp1 hp2
      _ = tf := hp3
  · intro q hq1 hq2
    calc tf = flowValue g s (netF g Rf) := hval.symm
      _ ≤ cutCap g q := weak_duality hfeas hsN hq1 hq2

/-! ### Concrete example networks -/

/-- A small diamond network: s feeds a and b, both feed t. -/
def exDiamond : Graph :=
  [("s", [("a", 3), ("b", 2)]),
   ("a", [("t", 2)]),
   ("b", [("t", 3)]),
   ("t", [])]

/-- A network with an antiparallel pair u↔v on the only s-t path. -/
def exAnti : Graph :=
  [("s", [("u", 1)]),
   ("u", [("v", 1)]),
   ("v", [("u", 1), ("t", 1)]),
   ("t", [])]

theorem exDiamond_wf : WFGraph exDiamond := ⟨by decide, by decide, by decide⟩

theorem exAnti_wf : WFGraph exAnti := ⟨by decide, by decide, by decide⟩

/-! ### Reading the flow matrix entry-wise -/

theorem max_neg_eq (x : Int) : max (-x) 0 = max x 0 - x := by
  rcases le_or_lt x 0 with h | h
  · rw [max_eq_left (by linarith), max_eq_right h]
    ring
  · rw [max_eq_right (by linarith), max_eq_left (by linarith)]
    ring

/-- Every flow-matrix entry is the clamped original-minus-residual value,
read through total lookups with default 0. -/
theorem cap_fm_max {g Rf fm : Graph}
    (hnn : ∀ a b, 0 ≤ cap Rf a b)
    (hlook : ∀ a, dfind? fm a =
      match dfind? g a with
      | none => none
      | some inner =>
        if inner.isEmpty then none
        else some (inner.map (fun vc =>
          (vc.1, if 0 < vc.2 - cap Rf a vc.1 then vc.2 - cap Rf a vc.1 else 0)))) :
    ∀ a b, cap fm a b = max (cap g a b - cap Rf a b) 0 := by
  intro a b
  have hfm : cap fm a b = (dfind? (dget fm a []) b).getD 0 := cap_eq fm a b
  have hg : cap g a b = (dfind? (dget g a []) b).getD 0 := cap_eq g a b
  have h := hlook a
  cases hga : dfind? g a with
  | none =>
    simp only [hga] at h
    have hcg : cap g a b = 0 := by
      rw [hg]
      unfold dget
      rw [hga]
      rfl
    have hcf : cap fm a b = 0 := by
      rw [hfm]
      unfold dget
      rw [h]
      rfl
    rw [hcf, hcg, max_eq_right (by have := hnn a b; linarith)]
  | some inner =>
    simp only [hga] at h
    have hrow : dget g a [] = inner := by
      unfold dget
      rw [hga]
      rfl
    by_cases hemp : inner.isEmpty
    · rw [if_pos hemp] at h
      have hinner : inner = [] := by
        cases inner with
        | nil => rfl
        | cons p rest => simp [List.isEmpty] at hemp
      have hcg : cap g a b = 0 := by
        rw [hg, hrow, hinner]
        rfl
      have hcf : cap fm a b = 0 := by
        rw [hfm]
        unfold dget
        rw [h]
        rfl
      rw [hcf, hcg, max_eq_right (by have := hnn a b; linarith)]
    · rw [if_neg hemp] at h
      have hrowf : dget fm a [] = inner.map (fun vc =>
          (vc.1, if 0 < vc.2 - cap Rf a vc.1 then vc.2 - cap Rf a vc.1 else 0)) := by
        unfold dget
        rw [h]
        rfl
      rw [hfm, hrowf,
        dfind?_map_val (fun w c => if 0 < c - cap Rf a w then c - cap Rf a w else 0)
          inner b]
      cases hib : dfind? inner b with
      | none =>
        have hcg : cap g a b = 0 := by
          rw [hg, hrow, hib]
          rfl
        simp only [Option.map_none', Option.getD_none]
        rw [hcg, max_eq_right (by have := hnn a b; linarith)]
      | some c =>
        have hcg : cap g a b = c := by
          rw [hg, hrow, hib]
          rfl
        simp only [Option.map_some', Option.getD_some]
        rw [hcg]
        by_cases hpos : 0 < c - cap Rf a b
        · rw [if_pos hpos, max_eq_left (by linarith)]
        · rw [if_neg hpos, max_eq_right (by linarith)]

/-- The flow matrix carries an entry exactly where the original graph has
an edge. -/
theorem hasEdge_fm_iff {g Rf fm : Graph}
    (hlook : ∀ a, dfind? fm a =
      match dfind? g a with
      | none => none
      | some inner =>
        if inner.isEmpty then none
        else some (inner.map (fun vc =>
          (vc.1, if 0 < vc.2 - cap Rf a vc.1 then vc.2 - cap Rf a vc.1 else 0)))) :
    ∀ a b, hasEdge fm a b ↔ hasEdge g a b := by
  intro a b
  have h := hlook a
  unfold hasEdge
  cases hga : dfind? g a with
  | none =>
    simp only [hga] at h
    simp [h]
  | some inner =>
    simp only [hga] at h
    by_cases hemp : inner.isEmpty
    · rw [if_pos hemp] at h
      have hinner : inner = [] := by
        cases inner with
        | nil => rfl
        | cons p rest => simp [List.isEmpty] at hemp
      simp [h, hinner]
    · rw [if_neg hemp] at h
      simp only [h, dkeys, List.map_map]
      constructor
      · intro hb
        obtain ⟨vc, hvc, hev⟩ := List.mem_map.1 hb
        exact List.mem_map.2 ⟨vc, hvc, hev⟩
      · intro hb
        obtain ⟨vc, hvc, hev⟩ := List.mem_map.1 hb
        exact List.mem_map.2 ⟨vc, hvc, hev⟩

/-- C2: on every well-formed graph with the source present and t ≠ s, the
augmenting loop terminates within its capacity-derived fuel with a total
flow between 0 and the sum of the source's outgoing capacities, and every
path the BFS returns has a strictly positive integer bottleneck. -/
theorem C2_termination {g : Graph} (hwf : WFGraph g) {s t : String}
    (hs : s ∈ dkeys g) (hts : t ≠ s) :
    (∃ tf fm Rf, edmondsKarp g s t = .ok (tf, fm, Rf) ∧
      0 ≤ tf ∧ tf ≤ sumOutCaps g s) ∧
    (∀ R pr, ResStruct g R → bfsAugment R s t = .ok (some pr) →
      1 ≤ pr.bottleneck) := by
  constructor
  · obtain ⟨tf, fm, Rf, hek, hinv, hpos, _, _⟩ := edmondsKarp_spec hwf hs hts
    refine ⟨tf, fm, Rf, hek, hpos, ?_⟩
    rw [← hinv.value_eq]
    exact excess_le_sumOut hwf hinv.struct s
  · intro R pr hS hb
    have hspec := bfsAugment_spec hS.rows_nodup (resStruct_innerKeys hwf hS)
      (by rw [hS.keys_eq]; exact hs) hts
    rw [hb] at hspec
    have hfound : BfsFound R s t pr := hspec
    obtain ⟨_, _, p, _, _, _, _, _, _, _, h1⟩ := hfound
    exact h1

/-- C3: in the returned flow matrix, total inflow equals total outflow at
every node of the network other than the source and the sink. -/
theorem C3_conservation {g : Graph} (hwf : WFGraph g) {s t : String}
    (hs : s ∈ dkeys g) (hts : t ≠ s) :
    ∃ tf fm Rf, edmondsKarp g s t = .ok (tf, fm, Rf) ∧
      ∀ n ∈ nodeSet g, n ≠ s → n ≠ t →
        (∑ u ∈ nodeSet g, cap fm u n) = (∑ v ∈ nodeSet g, cap fm n v) := by
  obtain ⟨tf, fm, Rf, hek, hinv, hpos, hreach, hlook⟩ := edmondsKarp_spec hwf hs hts
  have hcap := cap_fm_max hinv.struct.nonneg hlook
  refine ⟨tf, fm, Rf, hek, ?_⟩
  intro n hn hns hnt
  have hex : (∑ v ∈ nodeSet g, netF g Rf n v) = 0 := hinv.conserve n hn hns hnt
  have hskew : ∀ u, netF g Rf u n = - netF g Rf n u := by
    intro u
    have := hinv.struct.sum_eq u n
    unfold netF
    linarith
  calc (∑ u ∈ nodeSet g, cap fm u n)
      = ∑ u ∈ nodeSet g, (max (netF g Rf n u) 0 - netF g Rf n u) := by
        refine Finset.sum_congr rfl fun u _ => ?_
        rw [hcap u n, show cap g u n - cap Rf u n = netF g Rf u n from rfl, hskew u,
          max_neg_eq]
    _ = (∑ u ∈ nodeSet g, max (netF g Rf n u) 0) -
          ∑ u ∈ nodeSet g, netF g Rf n u := Finset.sum_sub_distrib
    _ = ∑ v ∈ nodeSet g, max (netF g Rf n v) 0 := by
        rw [hex]
        ring
    _ = ∑ v ∈ nodeSet g, cap fm n v := by
        refine Finset.sum_congr rfl fun v _ => ?_
        rw [hcap n v]
        rfl

/-- C4: the flow matrix has an entry exactly for the original edges, and
each realized flow lies between 0 and the original capacity. -/
theorem C4_capacity_respect {g : Graph} (hwf : WFGraph g) {s t : String}
    (hs : s ∈ dkeys g) (hts : t ≠ s) :
    ∃ tf fm Rf, edmondsKarp g s t = .ok (tf, fm, Rf) ∧
      (∀ u v, hasEdge fm u v ↔ hasEdge g u v) ∧
      (∀ u v, hasEdge g u v → 0 ≤ cap fm u v ∧ cap fm u v ≤ cap g u v) := by
  obtain ⟨tf, fm, Rf, hek, hinv, hpos, hreach, hlook⟩ := edmondsKarp_spec hwf hs hts
  have hcap := cap_fm_max hinv.struct.nonneg hlook
  refine ⟨tf, fm, Rf, hek, hasEdge_fm_iff hlook, ?_⟩
  intro u v _
  rw [hcap u v]
  refine ⟨le_max_right _ _, ?_⟩
  have h1 := hinv.struct.nonneg u v
  have h2 := cap_nonneg hwf u v
  rcases max_choice (cap g u v - cap Rf u v) (0 : Int) with h | h <;> rw [h] <;> linarith

/-- C7: the residual builder keeps every original capacity (it never
overwrites an existing entry, also for bidirectional pairs), installs
capacity 0 for the reverse of an edge whose reverse is not an original
edge, and leaves a reciprocal entry for every present entry. -/
theorem C7_residual {g : Graph} (hwf : WFGraph g) :
    (∀ u v, hasEdge g u v → cap (buildResidual g) u v = cap g u v) ∧
    (∀ u v, hasEdge g u v → ¬ hasEdge g v u → cap (buildResidual g) v u = 0) ∧
    (∀ u v, hasEdge (buildResidual g) u v → hasEdge (buildResidual g) v u) := by
  refine ⟨fun u v _ => buildResidual_cap hwf u v, ?_, ?_⟩
  · intro u v _ hnr
    rw [buildResidual_cap hwf v u]
    exact cap_eq_zero_of_not_hasEdge hnr
  · intro u v h
    rw [buildResidual_hasEdge_iff hwf] at h ⊢
    rcases h with h | h
    · exact Or.inr h
    · exact Or.inl h

/-- C9: two insertions of the same ordered pair accumulate into a single
entry holding the summed capacity, leaving every other capacity unchanged. -/
theorem C9_accumulate {g : Graph} (hwf : WFGraph g) (u v : String)
    {c1 c2 : Int} (h1 : 0 ≤ c1) (h2 : 0 ≤ c2) :
    ∃ g1 g2, addEdge g u v c1 = .ok g1 ∧ addEdge g1 u v c2 = .ok g2 ∧
      cap g2 u v = cap g u v + (c1 + c2) ∧
      countKey (dget g2 u []) v = 1 ∧
      (∀ a b, ¬ (a = u ∧ b = v) → cap g2 a b = cap g a b) := by
  obtain ⟨g1, hg1, hcap1, hrow1, _, hu1, hv1⟩ := addEdge_ok g u v c1 h1
  obtain ⟨g2, hg2, hcap2, hrow2, _, hu2, hv2⟩ := addEdge_ok g1 u v c2 h2
  have hwf1 : WFGraph g1 := addEdge_wf hwf hg1
  refine ⟨g1, g2, hg1, hg2, ?_, ?_, ?_⟩
  · rw [hcap2 u v, hcap1 u v, if_pos ⟨rfl, rfl⟩, if_pos ⟨rfl, rfl⟩]
    ring
  · rw [hrow2]
    exact countKey_dset_of_nodup (row_nodup hwf1 u) v _
  · intro a b hne
    rw [hcap2 a b, hcap1 a b, if_neg hne, if_neg hne]
    ring

/-- C10: a negative capacity makes add_edge fail with the invalid-capacity
error before touching the graph; no updated graph is ever produced. -/
theorem C10_negative_capacity (g : Graph) (u v : String) {c : Int} (hc : c < 0) :
    addEdge g u v c = .error .invalidCapacity ∧
    ∀ g2, addEdge g u v c ≠ .ok g2 := by
  have h : addEdge g u v c = .error .invalidCapacity := by
    unfold addEdge
    rw [if_pos hc]
  refine ⟨h, fun g2 hcon => ?_⟩
  rw [h] at hcon
  exact Except.noConfusion hcon

/-- C5 (amended): the solver performs no endpoint validation. With the
source present and equal to the sink it returns total flow 0 over the
untouched residual; with the source present and a distinct (possibly
absent) sink it returns a result; with the source absent it surfaces the
dictionary KeyError from the first BFS pop. -/
theorem C5_endpoint_behavior {g : Graph} (hwf : WFGraph g) (s t : String) :
    (s ∈ dkeys g → ∃ fm, edmondsKarp g s s = .ok (0, fm, buildResidual g)) ∧
    (s ∈ dkeys g → t ≠ s → ∃ r, edmondsKarp g s t = .ok r) ∧
    (s ∉ dkeys g → edmondsKarp g s t = .error .keyError) := by
  refine ⟨?_, ?_, ?_⟩
  · intro hs
    have hstruct := (ResInv_init hwf s s).struct
    have hsR : s ∈ dkeys (buildResidual g) := by
      rw [hstruct.keys_eq]
      exact hs
    have hbfs : bfsAugment (buildResidual g) s s = .ok none :=
      bfsAugment_self hstruct.rows_nodup (resStruct_innerKeys hwf hstruct) hsR
    obtain ⟨k, hk⟩ : ∃ k, ekFuel g s = k + 1 :=
      ⟨(sumOutCaps g s).toNat, by unfold ekFuel; omega⟩
    have hloop : ekLoop s s (ekFuel g s) (buildResidual g) 0 =
        .ok (0, buildResidual g) := by
      rw [hk]
      exact ekLoop_succ_none hbfs
    have hpres : ∀ p ∈ g, ∀ vc ∈ p.2, hasEdge (buildResidual g) p.1 vc.1 := by
      intro p hp vc hvc
      refine (hstruct.edge_iff p.1 vc.1).2 (Or.inl ?_)
      have hfind : dfind? g p.1 = some p.2 := dfind?_of_mem_nodup hwf.1 hp
      simp only [hasEdge, hfind]
      exact List.mem_map.2 ⟨vc, hvc, rfl⟩
    obtain ⟨fm, hfm, _⟩ := @flowMatrix_ok (buildResidual g) g hwf.1 hpres
    refine ⟨fm, ?_⟩
    rw [show edmondsKarp g s s =
        (match ekLoop s s (ekFuel g s) (buildResidual g) 0 with
         | .error e => .error e
         | .ok (total, resF) =>
           match flowMatrix resF g with
           | .error e => .error e
           | .ok fm2 => .ok (total, fm2, resF)) from rfl]
    simp only [hloop, hfm]
  · intro hs hts
    obtain ⟨tf, fm, Rf, hek, _, _, _, _⟩ := edmondsKarp_spec hwf hs hts
    exact ⟨(tf, fm, Rf), hek⟩
  · intro hsn
    obtain ⟨inv, _⟩ := buildResidual_inv hwf
    have hnone : dfind? (buildResidual g) s = none :=
      dfind?_eq_none_of_not_mem (by rw [inv.keys_eq]; exact hsn)
    obtain ⟨m, hm⟩ : ∃ m, bfsFuel (buildResidual g) = m + 1 :=
      ⟨((buildResidual g).map (fun p => p.2.length)).sum + (buildResidual g).length,
       by unfold bfsFuel; omega⟩
    have hbfs : bfsAugment (buildResidual g) s t = .error .keyError := by
      unfold bfsAugment
      rw [hm, bfsLoop_succ_cons]
      simp only [hnone]
    obtain ⟨k, hk⟩ : ∃ k, ekFuel g s = k + 1 :=
      ⟨(sumOutCaps g s).toNat, by unfold ekFuel; omega⟩
    rw [show edmondsKarp g s t =
        (match ekLoop s t (ekFuel g s) (buildResidual g) 0 with
         | .error e => .error e
         | .ok (total, resF) =>
           match flowMatrix resF g with
           | .error e => .error e
           | .ok fm2 => .ok (total, fm2, resF)) from rfl, hk, ekLoop_succ]
    simp only [hbfs]

/-- C5 counterexample: no InvalidEndpoints condition exists. Source equal
to sink returns total flow 0 instead of failing fast, an absent sink also
returns total flow 0, and an absent source raises a KeyError instead. -/
theorem C5_no_validation_cex :
    (edmondsKarp exDiamond "s" "s").map (fun r => r.1) = .ok 0 ∧
    (edmondsKarp exDiamond "s" "w").map (fun r => r.1) = .ok 0 ∧
    edmondsKarp exDiamond "w" "t" = .error .keyError := by
  refine ⟨?_, ?_, ?_⟩ <;> rfl

/-- C8 (amended): residual capacities stay non-negative throughout the
run, and for every edge whose reverse is not also an original edge the
derived value c − residual never goes negative, so the clamp leaves it
unchanged; only antiparallel pairs can make the clamp fire. -/
theorem C8_residual_nonneg {g : Graph} (hwf : WFGraph g) {s t : String}
    (hs : s ∈ dkeys g) (hts : t ≠ s) :
    ∃ tf fm Rf, edmondsKarp g s t = .ok (tf, fm, Rf) ∧
      (∀ a b, 0 ≤ cap Rf a b) ∧
      (∀ u v, hasEdge g u v → ¬ hasEdge g v u →
        0 ≤ cap g u v - cap Rf u v ∧ cap fm u v = cap g u v - cap Rf u v) := by
  obtain ⟨tf, fm, Rf, hek, hinv, hpos, hreach, hlook⟩ := edmondsKarp_spec hwf hs hts
  have hcap := cap_fm_max hinv.struct.nonneg hlook
  refine ⟨tf, fm, Rf, hek, hinv.struct.nonneg, ?_⟩
  intro u v _ hnr
  have hsum := hinv.struct.sum_eq u v
  have hgvu : cap g v u = 0 := cap_eq_zero_of_not_hasEdge hnr
  have hnn2 := hinv.struct.nonneg v u
  have hge : 0 ≤ cap g u v - cap Rf u v := by linarith
  refine ⟨hge, ?_⟩
  rw [hcap u v, max_eq_left hge]

/-- C8 counterexample: on the antiparallel network the final residual at
(v,u) exceeds the original capacity, the derived value c − residual is
negative there, and the clamp rewrites the flow entry to 0, altering the
computed value. -/
theorem C8_clamp_fires_cex :
    (edmondsKarp exAnti "s" "t").map
      (fun r => cap exAnti "v" "u" - cap r.2.2 "v" "u") = .ok (-1) ∧
    (edmondsKarp exAnti "s" "t").map (fun r => cap r.2.1 "v" "u") = .ok 0 ∧
    (edmondsKarp exAnti "s" "t").map (fun r => r.1) = .ok 1 := by
  refine ⟨?_, ?_, ?_⟩ <;> rfl

/-! ### The proportional decomposition of build_and_run -/

/-- Total inflow of one mid-tier node: `sum(in_T_to_S[s].values())`. -/
def totalIn (inflow : SDict Int) : Int := (inflow.map (·.2)).sum

/-- Total realized outflow of one mid-tier node. -/
def totalOut (outs : SDict Int) : Int := (outs.map (·.2)).sum

/-- `shares[t] = in_T_to_S[s].get(t, 0) / total_in`, in exact arithmetic. -/
def share (inflow : SDict Int) (t : String) : ℚ :=
  ((dget inflow t 0 : Int) : ℚ) / ((totalIn inflow : Int) : ℚ)

/-- What build_and_run attributes to the pair (t, m) at one mid-tier node:
hubs with zero total inflow are skipped, downstream edges with zero flow
are skipped, otherwise the edge flow times the terminal share. -/
def attributed (inflow outs : SDict Int) (t m : String) : ℚ :=
  if totalIn inflow = 0 then 0
  else if dget outs m 0 = 0 then 0
  else ((dget outs m 0 : Int) : ℚ) * share inflow t

theorem sum_dget_toFinset {d : SDict Int} (hnd : (dkeys d).Nodup) :
    (∑ k ∈ (dkeys d).toFinset, dget d k 0) = (d.map (·.2)).sum := by
  induction d with
  | nil => simp
  | cons p rest ih =>
    obtain ⟨k, v⟩ := p
    simp only [dkeys_cons, List.nodup_cons] at hnd
    have hk : k ∉ (dkeys rest).toFinset := by
      rw [List.mem_toFinset]
      exact hnd.1
    rw [show dkeys ((k, v) :: rest) = k :: dkeys rest from rfl,
      List.toFinset_cons, Finset.sum_insert hk]
    have h1 : dget ((k, v) :: rest) k 0 = v := by
      unfold dget
      rw [dfind?_cons, if_pos rfl]
      rfl
    have h2 : ∀ a ∈ (dkeys rest).toFinset, dget ((k, v) :: rest) a 0 = dget rest a 0 := by
      intro a ha
      have hak : k ≠ a := fun h => hnd.1 (h ▸ List.mem_toFinset.1 ha)
      unfold dget
      rw [dfind?_cons, if_neg hak]
    rw [h1, Finset.sum_congr rfl h2, ih hnd.2]
    simp

theorem sum_dget_cast {d : SDict Int} (hnd : (dkeys d).Nodup) :
    (∑ k ∈ (dkeys d).toFinset, ((dget d k 0 : Int) : ℚ)) = (((d.map (·.2)).sum : Int) : ℚ) := by
  rw [← sum_dget_toFinset hnd]
  push_cast
  rfl

/-- C6: at a mid-tier node, zero total inflow contributes nothing; with
nonzero total inflow every (terminal, store) pair receives the downstream
edge flow times inflow-share, and the attributed amounts sum to the node
total realized outflow; the 6/4-in, 7/3-out instance yields the X→P = 4.2,
Y→P = 2.8, X→Q = 1.8, Y→Q = 1.2 split. -/
theorem C6_decomposition (inflow outs : SDict Int)
    (hin : (dkeys inflow).Nodup) (hout : (dkeys outs).Nodup) :
    (totalIn inflow = 0 → ∀ t m, attributed inflow outs t m = 0) ∧
    (totalIn inflow ≠ 0 → ∀ t m, attributed inflow outs t m =
      ((dget outs m 0 : Int) : ℚ) * ((dget inflow t 0 : Int) : ℚ) /
        ((totalIn inflow : Int) : ℚ)) ∧
    (totalIn inflow ≠ 0 →
      (∑ t ∈ (dkeys inflow).toFinset, ∑ m ∈ (dkeys outs).toFinset,
        attributed inflow outs t m) = ((totalOut outs : Int) : ℚ)) ∧
    (attributed [("X", 6), ("Y", 4)] [("P", 7), ("Q", 3)] "X" "P" = 21/5 ∧
     attributed [("X", 6), ("Y", 4)] [("P", 7), ("Q", 3)] "Y" "P" = 14/5 ∧
     attributed [("X", 6), ("Y", 4)] [("P", 7), ("Q", 3)] "X" "Q" = 9/5 ∧
     attributed [("X", 6), ("Y", 4)] [("P", 7), ("Q", 3)] "Y" "Q" = 6/5) := by
  have hB : totalIn inflow ≠ 0 → ∀ t m, attributed inflow outs t m =
      ((dget outs m 0 : Int) : ℚ) * ((dget inflow t 0 : Int) : ℚ) /
        ((totalIn inflow : Int) : ℚ) := by
    intro hne t m
    unfold attributed
    rw [if_neg hne]
    by_cases hz : dget outs m 0 = 0
    · rw [if_pos hz, hz]
      simp
    · rw [if_neg hz]
      unfold share
      ring
  refine ⟨?_, hB, ?_, ?_⟩
  · intro h0 t m
    unfold attributed
    rw [if_pos h0]
  · intro hne
    have hQ : ((totalIn inflow : Int) : ℚ) ≠ 0 := Int.cast_ne_zero.2 hne
    calc (∑ t ∈ (dkeys inflow).toFinset, ∑ m ∈ (dkeys outs).toFinset,
          attributed inflow outs t m)
        = ∑ t ∈ (dkeys inflow).toFinset, ∑ m ∈ (dkeys outs).toFinset,
            ((dget outs m 0 : Int) : ℚ) * ((dget inflow t 0 : Int) : ℚ) /
              ((totalIn inflow : Int) : ℚ) :=
          Finset.sum_congr rfl fun t _ => Finset.sum_congr rfl fun m _ => hB hne t m
      _ = ∑ m ∈ (dkeys outs).toFinset, ∑ t ∈ (dkeys inflow).toFinset,
            ((dget outs m 0 : Int) : ℚ) * ((dget inflow t 0 : Int) : ℚ) /
              ((totalIn inflow : Int) : ℚ) := Finset.sum_comm
      _ = ∑ m ∈ (dkeys outs).toFinset, ((dget outs m 0 : Int) : ℚ) := by
          refine Finset.sum_congr rfl fun m _ => ?_
          rw [Finset.sum_congr rfl fun t _ =>
            (show ((dget outs m 0 : Int) : ℚ) * ((dget inflow t 0 : Int) : ℚ) /
                ((totalIn inflow : Int) : ℚ)
              = (((dget outs m 0 : Int) : ℚ) / ((totalIn inflow : Int) : ℚ)) *
                ((dget inflow t 0 : Int) : ℚ) from by ring)]
          rw [← Finset.mul_sum, sum_dget_cast hin,
            show (((inflow.map (·.2)).sum : Int) : ℚ) = ((totalIn inflow : Int) : ℚ) from rfl]
          field_simp
      _ = ((totalOut outs : Int) : ℚ) := sum_dget_cast hout
  · have e1 : dget [("P", (7 : Int)), ("Q", 3)] "P" 0 = 7 := rfl
    have e2 : dget [("P", (7 : Int)), ("Q", 3)] "Q" 0 = 3 := rfl
    have e3 : dget [("X", (6 : Int)), ("Y", 4)] "X" 0 = 6 := rfl
    have e4 : dget [("X", (6 : Int)), ("Y", 4)] "Y" 0 = 4 := rfl
    have e5 : totalIn [("X", (6 : Int)), ("Y", 4)] = 10 := rfl
    refine ⟨?_, ?_, ?_, ?_⟩ <;>
      · unfold attributed share
        rw [e5]
        norm_num [e1, e2, e3, e4]

/-! ### Witnesses on the concrete networks -/

/-- C1 instantiated on the diamond network. -/
theorem C1_maxflow_mincut_witness :
    WFGraph exDiamond ∧ ("s" : String) ∈ dkeys exDiamond ∧
    ("t" : String) ∈ dkeys exDiamond ∧ ("s" : String) ≠ "t" ∧
    (∃ tf fm Rf, edmondsKarp exDiamond "s" "t" = .ok (tf, fm, Rf) ∧
      IsMaxFlowValue exDiamond "s" "t" tf ∧ IsMinCutValue exDiamond "s" "t" tf) :=
  ⟨exDiamond_wf, by decide, by decide, by decide,
   C1_maxflow_mincut exDiamond_wf (by decide) (by decide) (by decide)⟩

/-- C2 instantiated on the diamond network. -/
theorem C2_termination_witness :
    WFGraph exDiamond ∧ ("s" : String) ∈ dkeys exDiamond ∧ ("t" : String) ≠ "s" ∧
    ((∃ tf fm Rf, edmondsKarp exDiamond "s" "t" = .ok (tf, fm, Rf) ∧
        0 ≤ tf ∧ tf ≤ sumOutCaps exDiamond "s") ∧
     (∀ R pr, ResStruct exDiamond R → bfsAugment R "s" "t" = .ok (some pr) →
        1 ≤ pr.bottleneck)) :=
  ⟨exDiamond_wf, by decide, by decide,
   C2_termination exDiamond_wf (by decide) (by decide)⟩

/-- C3 instantiated on the diamond network. -/
theorem C3_conservation_witness :
    WFGraph exDiamond ∧ ("s" : String) ∈ dkeys exDiamond ∧ ("t" : String) ≠ "s" ∧
    (∃ tf fm Rf, edmondsKarp exDiamond "s" "t" = .ok (tf, fm, Rf) ∧
      ∀ n ∈ nodeSet exDiamond, n ≠ "s" → n ≠ "t" →
        (∑ u ∈ nodeSet exDiamond, cap fm u n) = (∑ v ∈ nodeSet exDiamond, cap fm n v)) :=
  ⟨exDiamond_wf, by decide, by decide,
   C3_conservation exDiamond_wf (by decide) (by decide)⟩

/-- C4 instantiated on the diamond network. -/
theorem C4_capacity_respect_witness :
    WFGraph exDiamond ∧ ("s" : String) ∈ dkeys exDiamond ∧ ("t" : String) ≠ "s" ∧
    (∃ tf fm Rf, edmondsKarp exDiamond "s" "t" = .ok (tf, fm, Rf) ∧
      (∀ u v, hasEdge fm u v ↔ hasEdge exDiamond u v) ∧
      (∀ u v, hasEdge exDiamond u v → 0 ≤ cap fm u v ∧ cap fm u v ≤ cap exDiamond u v)) :=
  ⟨exDiamond_wf, by decide, by decide,
   C4_capacity_respect exDiamond_wf (by decide) (by decide)⟩

/-- C5 (amended) instantiated on the diamond network. -/
theorem C5_endpoint_behavior_witness :
    WFGraph exDiamond ∧
    ((("s" : String) ∈ dkeys exDiamond →
        ∃ fm, edmondsKarp exDiamond "s" "s" = .ok (0, fm, buildResidual exDiamond)) ∧
     (("s" : String) ∈ dkeys exDiamond → ("t" : String) ≠ "s" →
        ∃ r, edmondsKarp exDiamond "s" "t" = .ok r) ∧
     (("s" : String) ∉ dkeys exDiamond →
        edmondsKarp exDiamond "s" "t" = .error .keyError)) :=
  ⟨exDiamond_wf, C5_endpoint_behavior exDiamond_wf "s" "t"⟩

/-- C6 instantiated on the 6/4-in, 7/3-out hub. -/
theorem C6_decomposition_witness :
    (dkeys [("X", (6 : Int)), ("Y", 4)]).Nodup ∧
    (dkeys [("P", (7 : Int)), ("Q", 3)]).Nodup ∧
    ((totalIn [("X", 6), ("Y", 4)] = 0 →
       ∀ t m, attributed [("X", 6), ("Y", 4)] [("P", 7), ("Q", 3)] t m = 0) ∧
     (totalIn [("X", 6), ("Y", 4)] ≠ 0 →
       ∀ t m, attributed [("X", 6), ("Y", 4)] [("P", 7), ("Q", 3)] t m =
         ((dget [("P", 7), ("Q", 3)] m 0 : Int) : ℚ) *
           ((dget [("X", 6), ("Y", 4)] t 0 : Int) : ℚ) /
           ((totalIn [("X", 6), ("Y", 4)] : Int) : ℚ)) ∧
     (totalIn [("X", 6), ("Y", 4)] ≠ 0 →
       (∑ t ∈ (dkeys [("X", (6 : Int)), ("Y", 4)]).toFinset,
          ∑ m ∈ (dkeys [("P", (7 : Int)), ("Q", 3)]).toFinset,
            attributed [("X", 6), ("Y", 4)] [("P", 7), ("Q", 3)] t m) =
         ((totalOut [("P", 7), ("Q", 3)] : Int) : ℚ)) ∧
     (attributed [("X", 6), ("Y", 4)] [("P", 7), ("Q", 3)] "X" "P" = 21/5 ∧
      attributed [("X", 6), ("Y", 4)] [("P", 7), ("Q", 3)] "Y" "P" = 14/5 ∧
      attributed [("X", 6), ("Y", 4)] [("P", 7), ("Q", 3)] "X" "Q" = 9/5 ∧
      attributed [("X", 6), ("Y", 4)] [("P", 7), ("Q", 3)] "Y" "Q" = 6/5)) :=
  ⟨by decide, by decide,
   C6_decomposition [("X", 6), ("Y", 4)] [("P", 7), ("Q", 3)] (by decide) (by decide)⟩

/-- C7 instantiated on the antiparallel network, which has a bidirectional
pair u↔v. -/
theorem C7_residual_witness :
    WFGraph exAnti ∧
    ((∀ u v, hasEdge exAnti u v → cap (buildResidual exAnti) u v = cap exAnti u v) ∧
     (∀ u v, hasEdge exAnti u v → ¬ hasEdge exAnti v u →
        cap (buildResidual exAnti) v u = 0) ∧
     (∀ u v, hasEdge (buildResidual exAnti) u v → hasEdge (buildResidual exAnti) v u)) :=
  ⟨exAnti_wf, C7_residual exAnti_wf⟩

/-- C8 (amended) instantiated on the antiparallel network. -/
theorem C8_residual_nonneg_witness :
    WFGraph exAnti ∧ ("s" : String) ∈ dkeys exAnti ∧ ("t" : String) ≠ "s" ∧
    (∃ tf fm Rf, edmondsKarp exAnti "s" "t" = .ok (tf, fm, Rf) ∧
      (∀ a b, 0 ≤ cap Rf a b) ∧
      (∀ u v, hasEdge exAnti u v → ¬ hasEdge exAnti v u →
        0 ≤ cap exAnti u v - cap Rf u v ∧ cap fm u v = cap exAnti u v - cap Rf u v)) :=
  ⟨exAnti_wf, by decide, by decide,
   C8_residual_nonneg exAnti_wf (by decide) (by decide)⟩

/-- C9 instantiated from the empty graph with capacities 2 and 3. -/
theorem C9_accumulate_witness :
    WFGraph ([] : Graph) ∧ (0 : Int) ≤ 2 ∧ (0 : Int) ≤ 3 ∧
    (∃ g1 g2, addEdge ([] : Graph) "a" "b" 2 = .ok g1 ∧
      addEdge g1 "a" "b" 3 = .ok g2 ∧
      cap g2 "a" "b" = cap ([] : Graph) "a" "b" + (2 + 3) ∧
      countKey (dget g2 "a" []) "b" = 1 ∧
      (∀ a b, ¬ (a = "a" ∧ b = "b") → cap g2 a b = cap ([] : Graph) a b)) :=
  ⟨⟨by decide, by decide, by decide⟩, by decide, by decide,
   C9_accumulate ⟨by decide, by decide, by decide⟩ "a" "b" (by decide) (by decide)⟩

/-- C10 instantiated on capacity −1. -/
theorem C10_negative_capacity_witness :
    (-1 : Int) < 0 ∧
    (addEdge ([] : Graph) "a" "b" (-1) = .error .invalidCapacity ∧
     ∀ g2, addEdge ([] : Graph) "a" "b" (-1) ≠ .ok g2) :=
  ⟨by decide, C10_negative_capacity [] "a" "b" (by decide)⟩

end Task1
